import Mathlib

/-!
Verification development for the multi-kernel Jupyter execution logger
(src/juplaunc.py).  The Python source is shallowly embedded: the message
classifier becomes pure functions over a JSON-like value type, the log sink
becomes a serializer to character lists, discovery and the supervisor loop
become folds over poll results, and the thread interleavings relevant to the
shared cell counter and the shutdown path become an explicit small-step
schedule semantics.
-/

namespace Juplaunc

mutual

/-- JSON-like values as they appear in kernel message content and in log
records.  Numbers are modelled as integers; the classifier itself never
computes with payload numbers, so the embedding does not model
floating-point payloads. -/
inductive JValue : Type where
  | null : JValue
  | bool : Bool → JValue
  | int : Int → JValue
  | str : String → JValue
  | arr : JArray → JValue
  | obj : JObject → JValue

/-- Spine of a JSON array (kept as a separate mutual inductive so that
recursions and inductions over nested values stay structural). -/
inductive JArray : Type where
  | nil : JArray
  | cons : JValue → JArray → JArray

/-- Spine of a JSON object: an ordered list of key/value pairs, mirroring a
Python dict literal in insertion order. -/
inductive JObject : Type where
  | nil : JObject
  | cons : String → JValue → JObject → JObject

end

/-- First binding of a key in an object, mirroring Python dict lookup
(dict keys are unique in the source, so first match is the match). -/
def JObject.find? : JObject → String → Option JValue
  | .nil, _ => none
  | .cons k v rest, key => if k = key then some v else rest.find? key

/-- Python `content.get(key)`: the stored value, or `None` (JSON null) when
the key is absent. -/
def JObject.get (o : JObject) (key : String) : JValue :=
  (o.find? key).getD .null

/-- Python `content.get(key, default)`. -/
def JObject.getD (o : JObject) (key : String) (dflt : JValue) : JValue :=
  (o.find? key).getD dflt

/-- Build an object from a list literal of key/value pairs. -/
def jobj : List (String × JValue) → JObject
  | [] => .nil
  | (k, v) :: rest => .cons k v (jobj rest)

/-- A raw kernel message as consumed by the classifier: the source reads
only `msg["header"]["msg_type"]` and `msg["content"]`, so the embedding
keeps exactly those two fields. -/
structure KernelMsg where
  msg_type : String
  content : JObject

/-- Embedding of `NotebookExecutionLogger.process_message` (lines 80-141):
classify one IOPub (event-stream) message.  The capture timestamp
`datetime.now().isoformat()` is passed in as `now`; the mutable
`self.cell_count` is passed in and returned explicitly.  Returns the log
record handed to `log_entry` (if any) together with the new counter. -/
def process_message (now : String) (msg : KernelMsg) (kernel_id : String)
    (cell_count : Nat) : Option JObject × Nat :=
  let msg_type := msg.msg_type
  let content := msg.content
  if msg_type = "execute_input" then
    let cc := cell_count + 1
    (some (jobj [("timestamp", .str now), ("kernel_id", .str kernel_id),
      ("cell_number", .int (cc : Int)), ("type", .str "input"),
      ("execution_count", content.get "execution_count"),
      ("code", content.getD "code" (.str ""))]), cc)
  else if msg_type = "stream" then
    (some (jobj [("timestamp", .str now), ("kernel_id", .str kernel_id),
      ("type", .str "stream"),
      ("stream_name", content.get "name"),
      ("content", content.getD "text" (.str ""))]), cell_count)
  else if msg_type = "execute_result" then
    (some (jobj [("timestamp", .str now), ("kernel_id", .str kernel_id),
      ("type", .str "output"),
      ("execution_count", content.get "execution_count"),
      ("data", content.getD "data" (.obj .nil))]), cell_count)
  else if msg_type = "error" then
    (some (jobj [("timestamp", .str now), ("kernel_id", .str kernel_id),
      ("type", .str "error"),
      ("error_name", content.get "ename"),
      ("error_value", content.get "evalue"),
      ("traceback", content.getD "traceback" (.arr .nil))]), cell_count)
  else if msg_type = "display_data" then
    (some (jobj [("timestamp", .str now), ("kernel_id", .str kernel_id),
      ("type", .str "display"),
      ("data", content.getD "data" (.obj .nil))]), cell_count)
  else (none, cell_count)

/-- Embedding of `NotebookExecutionLogger.process_shell_message`
(lines 142-155): classify one shell (control) message. -/
def process_shell_message (now : String) (msg : KernelMsg)
    (kernel_id : String) : Option JObject :=
  if msg.msg_type = "execute_reply" then
    some (jobj [("timestamp", .str now), ("kernel_id", .str kernel_id),
      ("type", .str "execute_reply"),
      ("status", msg.content.get "status"),
      ("execution_count", msg.content.get "execution_count")])
  else none

/-- Embedding of `NotebookExecutionLogger.process_stdin_message`
(lines 157-168): every stdin (input-request) message is logged, whatever
its kind tag. -/
def process_stdin_message (now : String) (msg : KernelMsg)
    (kernel_id : String) : JObject :=
  jobj [("timestamp", .str now), ("kernel_id", .str kernel_id),
    ("type", .str "stdin"),
    ("prompt", msg.content.getD "prompt" (.str "")),
    ("password", msg.content.getD "password" (.bool false))]

/-- Claim C1: an `execute_input` event-stream message always yields exactly
one record of type `input` carrying the message execution count and code,
increments the global cell counter, and stamps the incremented count as
`cell_number`; in particular the first cell with code `1+1` and
execution count 1 for kernel `abc` yields exactly the record of the spec
scenario (with the capture timestamp added, as every record carries one). -/
theorem claim_C1 :
    (∀ (now kid : String) (content : JObject) (c : Nat),
      process_message now ⟨"execute_input", content⟩ kid c =
        (some (jobj [("timestamp", .str now), ("kernel_id", .str kid),
          ("cell_number", .int ((c + 1 : Nat) : Int)), ("type", .str "input"),
          ("execution_count", content.get "execution_count"),
          ("code", content.getD "code" (.str ""))]), c + 1)) ∧
    (∀ now : String,
      process_message now
          ⟨"execute_input",
            jobj [("code", .str "1+1"), ("execution_count", .int 1)]⟩
          "abc" 0 =
        (some (jobj [("timestamp", .str now), ("kernel_id", .str "abc"),
          ("cell_number", .int 1), ("type", .str "input"),
          ("execution_count", .int 1), ("code", .str "1+1")]), 1)) := by
  exact ⟨fun now kid content c => rfl, fun now => rfl⟩

/-- Claim C3: the classifier maps each (channel, kind-tag) pair to exactly
the record shape of the spec table: event-stream `stream`, `execute_result`,
`error` and `display_data` become `stream`, `output`, `error` and `display`
records with the tabulated fields and leave the cell counter unchanged;
a control `execute_reply` becomes an `execute_reply` record with status and
execution count; and every input-request message, regardless of kind tag,
becomes a `stdin` record with prompt text and password-mode boolean. -/
theorem claim_C3 :
    (∀ (now kid : String) (content : JObject) (c : Nat),
      process_message now ⟨"stream", content⟩ kid c =
        (some (jobj [("timestamp", .str now), ("kernel_id", .str kid),
          ("type", .str "stream"),
          ("stream_name", content.get "name"),
          ("content", content.getD "text" (.str ""))]), c)) ∧
    (∀ (now kid : String) (content : JObject) (c : Nat),
      process_message now ⟨"execute_result", content⟩ kid c =
        (some (jobj [("timestamp", .str now), ("kernel_id", .str kid),
          ("type", .str "output"),
          ("execution_count", content.get "execution_count"),
          ("data", content.getD "data" (.obj .nil))]), c)) ∧
    (∀ (now kid : String) (content : JObject) (c : Nat),
      process_message now ⟨"error", content⟩ kid c =
        (some (jobj [("timestamp", .str now), ("kernel_id", .str kid),
          ("type", .str "error"),
          ("error_name", content.get "ename"),
          ("error_value", content.get "evalue"),
          ("traceback", content.getD "traceback" (.arr .nil))]), c)) ∧
    (∀ (now kid : String) (content : JObject) (c : Nat),
      process_message now ⟨"display_data", content⟩ kid c =
        (some (jobj [("timestamp", .str now), ("kernel_id", .str kid),
          ("type", .str "display"),
          ("data", content.getD "data" (.obj .nil))]), c)) ∧
    (∀ (now kid : String) (content : JObject),
      process_shell_message now ⟨"execute_reply", content⟩ kid =
        some (jobj [("timestamp", .str now), ("kernel_id", .str kid),
          ("type", .str "execute_reply"),
          ("status", content.get "status"),
          ("execution_count", content.get "execution_count")])) ∧
    (∀ (now kid : String) (msg : KernelMsg),
      process_stdin_message now msg kid =
        jobj [("timestamp", .str now), ("kernel_id", .str kid),
          ("type", .str "stdin"),
          ("prompt", msg.content.getD "prompt" (.str "")),
          ("password", msg.content.getD "password" (.bool false))]) := by
  refine ⟨fun _ _ _ _ => rfl, fun _ _ _ _ => rfl, fun _ _ _ _ => rfl,
    fun _ _ _ _ => rfl, fun _ _ _ => rfl, fun _ _ _ => rfl⟩

/-- Claim C4: a kind tag that is not in the recognized set of its own
channel produces no record and no error on that channel, each channel
judged by its own table rows: on the event stream, anything outside the
five tabulated tags (even a tag such as `execute_reply` that another
channel recognizes) falls through every branch of `process_message` and
returns no record with the counter unchanged; on the control channel,
anything other than `execute_reply` (even an event-stream tag such as
`stream`) returns no record.  (Every kind tag is recognized on the
input-request channel, whose table row matches any tag.) -/
theorem claim_C4 (now kid : String) (content : JObject) (c : Nat)
    (tag : String) :
    (tag ≠ "execute_input" → tag ≠ "stream" → tag ≠ "execute_result" →
      tag ≠ "error" → tag ≠ "display_data" →
      process_message now ⟨tag, content⟩ kid c = (none, c)) ∧
    (tag ≠ "execute_reply" →
      process_shell_message now ⟨tag, content⟩ kid = none) := by
  constructor
  · intro h1 h2 h3 h4 h5
    simp only [process_message, if_neg h1, if_neg h2, if_neg h3, if_neg h4,
      if_neg h5]
  · intro h6
    simp only [process_shell_message, if_neg h6]

/-- Witness for claim C4 at the cross-channel tags: `execute_reply` is not
an event-stream tag, so the event-stream dispatcher ignores it, and
`stream` is not a control tag, so the control dispatcher ignores it. -/
theorem claim_C4_witness :
    process_message "t" ⟨"execute_reply", .nil⟩ "abc" 3 = (none, 3) ∧
    process_shell_message "t" ⟨"stream", .nil⟩ "abc" = none :=
  ⟨(claim_C4 "t" "abc" .nil 3 "execute_reply").1 (by decide) (by decide)
      (by decide) (by decide) (by decide),
    (claim_C4 "t" "abc" .nil 3 "stream").2 (by decide)⟩

/-- Observations recorded at one footer write: the cell count written into
the footer text, the value of the running flag at the write, and whether at
that moment every monitor had already observed the flag being false. -/
structure FooterInfo where
  count : Nat
  runningAtWrite : Bool
  allObservedAtWrite : Bool
deriving DecidableEq

/-- Atomic steps of the threads sharing `logger.cell_count` and
`logger.running`.  CPython compiles `self.cell_count += 1` (line 86) to a
load of the attribute followed by a store, and the interpreter may switch
threads between the two bytecodes, so the increment is modelled as the pair
`loadCount`/`storeCount`; `storeCount` also covers the `log_entry` append of
the resulting input record (line 95).  `observeFlag` is a monitor evaluating
`while self.running` (line 52); `setFlag` is `logger.running = False` in the
signal handler (line 285); `writeFooter` is the footer append of
`logger.cell_count` (lines 292-295). -/
inductive Act : Type where
  | loadCount : Nat → Act
  | storeCount : Nat → Act
  | observeFlag : Nat → Act
  | setFlag : Act
  | writeFooter : Act
deriving DecidableEq

/-- Shared state of the process: the global cell counter, the per-monitor
register holding a loaded-but-not-yet-stored counter value, the number of
input records appended to the log, the running flag, which monitors have
observed the flag being false, and the footer writes so far. -/
structure SysState where
  cell_count : Nat
  regs : List (Option Nat)
  inputs : Nat
  running : Bool
  observed : List Bool
  footer : List FooterInfo
deriving DecidableEq

/-- One scheduled step of the system.  A `storeCount` with no pending load
is a no-op (schedules are free-form; well-formed monitor schedules always
alternate load and store). -/
def sysStep (s : SysState) : Act → SysState
  | .loadCount i => { s with regs := s.regs.set i (some s.cell_count) }
  | .storeCount i =>
    (s.regs.getD i none).elim s fun v =>
      { s with
        cell_count := v + 1
        inputs := s.inputs + 1
        regs := s.regs.set i none }
  | .observeFlag i =>
    if s.running then s else { s with observed := s.observed.set i true }
  | .setFlag => { s with running := false }
  | .writeFooter =>
    { s with
      footer := s.footer ++ [⟨s.cell_count, s.running, s.observed.all id⟩] }

/-- Run a schedule of steps from a state. -/
def sysRun (acts : List Act) (s : SysState) : SysState := acts.foldl sysStep s

/-- Initial state for `n` monitors: counter 0, flag true, nothing observed,
no footer. -/
def sysInit (n : Nat) : SysState :=
  ⟨0, List.replicate n none, 0, true, List.replicate n false, []⟩

theorem sysRun_append (a b : List Act) (s : SysState) :
    sysRun (a ++ b) s = sysRun b (sysRun a s) :=
  List.foldl_append sysStep s a b

theorem sysRun_cons (a : Act) (l : List Act) (s : SysState) :
    sysRun (a :: l) s = sysRun l (sysStep s a) := rfl

theorem sysStep_running_false (s : SysState) (a : Act)
    (h : s.running = false) : (sysStep s a).running = false := by
  cases a with
  | loadCount i => exact h
  | storeCount i =>
    cases hv : s.regs[i]? with
    | none => simpa [sysStep, List.getD, hv] using h
    | some v =>
      cases v with
      | none => simpa [sysStep, List.getD, hv] using h
      | some w => simpa [sysStep, List.getD, hv] using h
  | observeFlag i => simp [sysStep, h]
  | setFlag => rfl
  | writeFooter => exact h

/-- No step ever sets the running flag back to true. -/
theorem sysRun_running_false (l : List Act) (s : SysState)
    (h : s.running = false) : (sysRun l s).running = false := by
  induction l generalizing s with
  | nil => exact h
  | cons a l ih => exact ih _ (sysStep_running_false s a h)

/-- Only `writeFooter` touches the footer. -/
theorem sysRun_footer (l : List Act) (s : SysState)
    (h : Act.writeFooter ∉ l) : (sysRun l s).footer = s.footer := by
  induction l generalizing s with
  | nil => rfl
  | cons a l ih =>
    rw [List.mem_cons] at h
    push_neg at h
    rw [sysRun_cons, ih _ h.2]
    cases a with
    | loadCount i => rfl
    | storeCount i =>
      cases hv : s.regs[i]? with
      | none => simp [sysStep, List.getD, hv]
      | some v =>
        cases v with
        | none => simp [sysStep, List.getD, hv]
        | some w => simp [sysStep, List.getD, hv]
    | observeFlag i => by_cases hr : s.running <;> simp [sysStep, hr]
    | setFlag => rfl
    | writeFooter => exact absurd rfl h.1

/-- Claim C2, evaluated at the failing schedule: two monitors each process
one `execute_input`, and the interpreter switches threads between the load
and the store of `self.cell_count += 1` in both.  The code then reaches
cell count 1 although K = 2 events were processed and 2 input records were
appended; the fully serialized schedule of the same two events reaches 2. -/
theorem claim_C2_code_eval :
    (sysRun [.loadCount 0, .loadCount 1, .storeCount 0, .storeCount 1]
        (sysInit 2)).cell_count = 1 ∧
    (sysRun [.loadCount 0, .loadCount 1, .storeCount 0, .storeCount 1]
        (sysInit 2)).inputs = 2 ∧
    (sysRun [.loadCount 0, .storeCount 0, .loadCount 1, .storeCount 1]
        (sysInit 2)).cell_count = 2 :=
  ⟨rfl, rfl, rfl⟩

/-- Counterexample to claim C6 as stated: the signal handler flips the flag
and immediately writes the footer without waiting for the monitors, so in
this schedule the single footer write happens before either monitor has
observed the flag flip, and (the two increments having raced) the written
total is 1 while 2 input records are in the log. -/
theorem claim_C6_counterexample :
    (sysRun [.loadCount 0, .loadCount 1, .storeCount 0, .storeCount 1,
        .setFlag, .writeFooter, .observeFlag 0, .observeFlag 1]
        (sysInit 2)).footer = [⟨1, false, false⟩] ∧
    (sysRun [.loadCount 0, .loadCount 1, .storeCount 0, .storeCount 1,
        .setFlag, .writeFooter, .observeFlag 0, .observeFlag 1]
        (sysInit 2)).inputs = 2 ∧
    ¬ (∀ f ∈ (sysRun [.loadCount 0, .loadCount 1, .storeCount 0,
        .storeCount 1, .setFlag, .writeFooter, .observeFlag 0,
        .observeFlag 1] (sysInit 2)).footer,
        f.allObservedAtWrite = true ∧
        f.count = (sysRun [.loadCount 0, .loadCount 1, .storeCount 0,
          .storeCount 1, .setFlag, .writeFooter, .observeFlag 0,
          .observeFlag 1] (sysInit 2)).inputs) := by
  refine ⟨rfl, rfl, ?_⟩
  decide

/-- Claim C6 as amended: in any schedule in which the signal handler runs
its straight-line body once (the flag flip followed later by the one footer
write, no other footer writes anywhere), the footer is written exactly once,
the running flag is false at the write, and the written total equals the
global cell counter at the moment of the write.  The write is not ordered
after the monitors observe the flip, and the counter need not equal the
number of input records. -/
theorem claim_C6_amended (n : Nat) (pre mid post : List Act)
    (hp : Act.writeFooter ∉ pre) (hm : Act.writeFooter ∉ mid)
    (hq : Act.writeFooter ∉ post) :
    (sysRun (pre ++ Act.setFlag :: (mid ++ Act.writeFooter :: post))
        (sysInit n)).footer =
      [⟨(sysRun (pre ++ Act.setFlag :: mid) (sysInit n)).cell_count, false,
        (sysRun (pre ++ Act.setFlag :: mid) (sysInit n)).observed.all id⟩] := by
  have hmid : sysRun (pre ++ Act.setFlag :: mid) (sysInit n) =
      sysRun mid (sysStep (sysRun pre (sysInit n)) Act.setFlag) := by
    rw [sysRun_append, sysRun_cons]
  have hrun : (sysRun (pre ++ Act.setFlag :: mid) (sysInit n)).running =
      false := by
    rw [hmid]
    exact sysRun_running_false mid _ rfl
  have hfoot : (sysRun (pre ++ Act.setFlag :: mid) (sysInit n)).footer =
      [] := by
    rw [hmid, sysRun_footer mid _ hm]
    have : (sysStep (sysRun pre (sysInit n)) Act.setFlag).footer =
        (sysRun pre (sysInit n)).footer := rfl
    rw [this, sysRun_footer pre _ hp]
    rfl
  have hsplit : pre ++ Act.setFlag :: (mid ++ Act.writeFooter :: post) =
      (pre ++ Act.setFlag :: mid) ++ Act.writeFooter :: post := by
    simp
  rw [hsplit, sysRun_append, sysRun_cons, sysRun_footer post _ hq]
  show (sysRun (pre ++ Act.setFlag :: mid) (sysInit n)).footer ++ _ = _
  rw [hfoot, hrun]
  rfl

/-- Witness for the amended claim C6 at a concrete schedule: one monitor,
one increment before shutdown, the observation happening only after the
footer write. -/
theorem claim_C6_witness :
    (sysRun [Act.loadCount 0, Act.setFlag, Act.writeFooter,
        Act.observeFlag 0] (sysInit 1)).footer = [⟨0, false, false⟩] := by
  have h := claim_C6_amended 1 [Act.loadCount 0] [] [Act.observeFlag 0]
    (by decide) (by decide) (by decide)
  exact h.trans (by rfl)

/-- One discovered kernel, as built by `find_running_kernels`
(lines 184-187): an identity and the path of its connection descriptor. -/
structure KernelEntry where
  id : String
  connection_file : String
deriving DecidableEq

/-- Embedding of the body of the `for kernel in kernels` loop in
`monitor_all_kernels` (lines 207-217): spawn a monitor thread for a
discovered kernel unless its identity is already in `monitored_kernels`.
The state is the pair (monitored identities, identities spawned so far, in
spawn order). -/
def attachOne (st : List String × List String) (k : KernelEntry) :
    List String × List String :=
  if k.id ∈ st.1 then st else (k.id :: st.1, st.2 ++ [k.id])

/-- One discovery poll of `monitor_all_kernels`: process every kernel the
scan returned. -/
def monitorStep (st : List String × List String) (ks : List KernelEntry) :
    List String × List String :=
  ks.foldl attachOne st

/-- The supervisor loop of `monitor_all_kernels` (lines 204-219) over a
finite sequence of discovery polls, starting from the empty monitored set
and no spawned threads. -/
def monitorRun (polls : List (List KernelEntry)) :
    List String × List String :=
  polls.foldl monitorStep ([], [])

/-- Invariant of the supervisor state: the spawn list has no duplicates and
lists exactly the monitored identities. -/
def supInv (st : List String × List String) : Prop :=
  st.2.Nodup ∧ ∀ x, x ∈ st.1 ↔ x ∈ st.2

theorem supInv_attachOne (st : List String × List String) (k : KernelEntry)
    (h : supInv st) : supInv (attachOne st k) := by
  obtain ⟨hnd, hiff⟩ := h
  by_cases hk : k.id ∈ st.1
  · simpa [attachOne, hk] using ⟨hnd, hiff⟩
  · simp only [attachOne, if_neg hk]
    refine ⟨?_, ?_⟩
    · rw [List.nodup_append]
      refine ⟨hnd, List.nodup_singleton _, ?_⟩
      intro x hx hx1
      rw [List.mem_singleton] at hx1
      subst hx1
      exact hk ((hiff _).mpr hx)
    · intro x
      simp only [List.mem_cons, List.mem_append, List.mem_singleton, hiff x]
      tauto

theorem supInv_monitorStep (ks : List KernelEntry)
    (st : List String × List String) (h : supInv st) :
    supInv (monitorStep st ks) := by
  induction ks generalizing st with
  | nil => exact h
  | cons k ks ih => exact ih _ (supInv_attachOne st k h)

theorem supInv_monitorRun_from (polls : List (List KernelEntry))
    (st : List String × List String) (h : supInv st) :
    supInv (polls.foldl monitorStep st) := by
  induction polls generalizing st with
  | nil => exact h
  | cons p polls ih => exact ih _ (supInv_monitorStep p st h)

theorem attachOne_mono (st : List String × List String) (k : KernelEntry)
    (x : String) (h : x ∈ st.1) : x ∈ (attachOne st k).1 := by
  by_cases hk : k.id ∈ st.1
  · simpa [attachOne, hk] using h
  · simp [attachOne, hk, List.mem_cons, h]

theorem monitorStep_mono (ks : List KernelEntry)
    (st : List String × List String) (x : String) (h : x ∈ st.1) :
    x ∈ (monitorStep st ks).1 := by
  induction ks generalizing st with
  | nil => exact h
  | cons k ks ih => exact ih _ (attachOne_mono st k x h)

theorem monitorStep_covers (ks : List KernelEntry)
    (st : List String × List String) (x : String)
    (h : x ∈ ks.map KernelEntry.id) : x ∈ (monitorStep st ks).1 := by
  induction ks generalizing st with
  | nil => simp at h
  | cons k ks ih =>
    rw [List.map_cons, List.mem_cons] at h
    rcases h with h | h
    · refine monitorStep_mono ks _ x ?_
      by_cases hk : k.id ∈ st.1
      · simp [attachOne, hk, h]
      · simp [attachOne, hk, List.mem_cons, h]
    · exact ih _ h

theorem monitorRun_mono_from (polls : List (List KernelEntry))
    (st : List String × List String) (x : String) (h : x ∈ st.1) :
    x ∈ (polls.foldl monitorStep st).1 := by
  induction polls generalizing st with
  | nil => exact h
  | cons p polls ih => exact ih _ (monitorStep_mono p st x h)

theorem monitorRun_covers_from (polls : List (List KernelEntry))
    (st : List String × List String) (x : String)
    (h : ∃ poll ∈ polls, x ∈ poll.map KernelEntry.id) :
    x ∈ (polls.foldl monitorStep st).1 := by
  induction polls generalizing st with
  | nil => simp at h
  | cons p polls ih =>
    obtain ⟨poll, hpoll, hx⟩ := h
    rw [List.mem_cons] at hpoll
    rcases hpoll with rfl | hpoll
    · exact monitorRun_mono_from polls _ x (monitorStep_covers poll st x hx)
    · exact ih _ ⟨poll, hpoll, hx⟩

/-- Claim C5: over any sequence of discovery polls, each kernel identity is
attached at most once (the spawn list counts it at most once), and an
identity that appears in at least one poll is spawned exactly once — in
particular the same identity returned by two consecutive polls gets exactly
one monitor. -/
theorem claim_C5 (polls : List (List KernelEntry)) (id : String) :
    (monitorRun polls).2.count id ≤ 1 ∧
    ((∃ poll ∈ polls, id ∈ poll.map KernelEntry.id) →
      (monitorRun polls).2.count id = 1) := by
  have hinv : supInv (monitorRun polls) :=
    supInv_monitorRun_from polls ([], []) ⟨List.nodup_nil, by simp⟩
  have hle : (monitorRun polls).2.count id ≤ 1 :=
    List.nodup_iff_count_le_one.mp hinv.1 id
  refine ⟨hle, fun h => ?_⟩
  have hmem : id ∈ (monitorRun polls).2 :=
    (hinv.2 id).mp (monitorRun_covers_from polls ([], []) id h)
  have hpos : 0 < (monitorRun polls).2.count id := List.count_pos_iff.mpr hmem
  omega

/-- Witness for claim C5: the same kernel identity discovered in two
consecutive polls yields exactly one spawn. -/
theorem claim_C5_witness :
    (monitorRun [[⟨"abc", "kernel-abc.json"⟩],
        [⟨"abc", "kernel-abc.json"⟩]]).2.count "abc" = 1 :=
  (claim_C5 [[⟨"abc", "kernel-abc.json"⟩], [⟨"abc", "kernel-abc.json"⟩]]
      "abc").2
    ⟨[⟨"abc", "kernel-abc.json"⟩], by simp, by simp⟩

/-- Outcome of the per-iteration message handling inside the monitor loop:
all ready channels handled without raising (possibly handling no message),
a channel read raising `queue.Empty`, or any other exception raised while
receiving or processing a message. -/
inductive IterOutcome : Type where
  | processed : IterOutcome
  | emptyQueue : IterOutcome
  | procError : String → IterOutcome

/-- What one pass of the monitor loop does: whether the loop continues,
what it prints to the console, and how long it sleeps (in milliseconds;
the per-pass yield is 10 ms, the error backoff 1000 ms = 1 time unit). -/
structure IterResult where
  continues : Bool
  console : List String
  sleepMs : Nat
deriving DecidableEq

/-- Embedding of one pass of `monitor_kernel`s loop (lines 52-73): when the
running flag is false the loop exits (channels are stopped); otherwise the
inner try/except handles the outcome — `queue.Empty` just continues, and
any other per-message exception is printed, followed by a 1-second sleep,
and the loop continues.  No outcome of a single pass escapes the loop, so a
per-message error never reaches the outer handler that tears the monitor
down. -/
def monitor_iteration (running : Bool) (outcome : IterOutcome) : IterResult :=
  if running then
    match outcome with
    | .processed => ⟨true, [], 10⟩
    | .emptyQueue => ⟨true, [], 0⟩
    | .procError e => ⟨true, ["Error monitoring kernel: " ++ e], 1000⟩
  else ⟨false, [], 0⟩

/-- Claim C8: a per-message processing error inside the monitor loop is
logged to the console, followed by a wait of 1 time unit (1000 ms), and the
loop continues — the monitor is not torn down and the error goes no further
than this iteration result. -/
theorem claim_C8 (e : String) :
    monitor_iteration true (.procError e) =
      ⟨true, ["Error monitoring kernel: " ++ e], 1000⟩ :=
  rfl

/-- Fueled worker for `replaceAllL`: one unit of fuel per character of the
input suffices, since every step consumes at least one character. -/
def replaceFuel (pat rep : List Char) : Nat → List Char → List Char
  | 0, s => s
  | fuel + 1, s =>
    match s with
    | [] => []
    | c :: rest =>
      if pat ≠ [] ∧ pat.isPrefixOf (c :: rest) then
        rep ++ replaceFuel pat rep fuel ((c :: rest).drop pat.length)
      else
        c :: replaceFuel pat rep fuel rest

/-- Model of Python `str.replace(pat, rep)`: replace every non-overlapping
occurrence of `pat`, scanning left to right.  (Python inserts `rep` around
every character when `pat` is empty; the source only ever calls this with
the non-empty pattern `kernel-`, for which an empty pattern leaves the
string unchanged here.) -/
def replaceAllL (pat rep s : List Char) : List Char :=
  replaceFuel pat rep s.length s

/-- Model of `pathlib.Path.stem` for a bare file name: the name with its
last dot-suffix removed (the name itself when it has no dot). -/
def stemL (s : List Char) : List Char :=
  match s.reverse.dropWhile (fun c => c ≠ '.') with
  | [] => s
  | _ :: rest => rest.reverse

/-- Does a file name match the glob pattern the source scans for,
`kernel-*.json` (line 179)?  `*` matches any, possibly empty, run of
characters, so the name must start with `kernel-`, end with `.json`, and be
long enough for the two not to overlap. -/
def globKernelJson (name : String) : Bool :=
  ("kernel-".data.isPrefixOf name.data &&
    ".json".data.isSuffixOf name.data) && decide (12 ≤ name.length)

/-- Embedding of `kf.stem.replace("kernel-", "")` (line 183): the kernel
identity extracted from a connection-descriptor file name. -/
def extractKernelId (name : String) : String :=
  ⟨replaceAllL "kernel-".data [] (stemL name.data)⟩

/-- Embedding of `find_running_kernels` (lines 171-192).  The filesystem
scan is an input: either the listing of the runtime directory, or the
exception any part of the scan raised (missing directory, unreadable
directory, and so on).  Returns the discovered kernels together with the
lines printed to the console: on any scan failure the kernel list is empty
and the failure is printed, once, with no retry inside the call. -/
def find_running_kernels (scan : Except String (List String)) :
    List KernelEntry × List String :=
  match scan with
  | .error e => ([], ["Error finding kernels: " ++ e])
  | .ok names =>
    ((names.filter globKernelJson).map
      (fun n => ⟨extractKernelId n, n⟩), [])

/-- Claim C9: whatever the reason the scan failed, discovery returns the
empty kernel set and prints the failure to the console exactly once — it
neither raises nor retries within the call. -/
theorem claim_C9 (e : String) :
    find_running_kernels (.error e) =
      ([], ["Error finding kernels: " ++ e]) :=
  rfl

/-- Claim C10: identity extraction removes every occurrence of the
substring `kernel-` from the file-name stem, not only the leading prefix:
the descriptor `kernel-kernel-1.json` yields identity `1`, not `kernel-1`,
both through the extraction function and through a full discovery scan. -/
theorem claim_C10 :
    extractKernelId "kernel-kernel-1.json" = "1" ∧
    extractKernelId "kernel-kernel-1.json" ≠ "kernel-1" ∧
    (find_running_kernels (.ok ["kernel-kernel-1.json"])).1 =
      [⟨"1", "kernel-kernel-1.json"⟩] := by
  refine ⟨by decide, by decide, by decide⟩

/-- Escape of one character inside a JSON string literal, following the
escape table of the `json` module used by `json.dumps` (line 38): the
two-character escapes for quote, backslash and the common control
characters, and a lowercase 4-digit hex escape for the other control
characters.  Characters at and above code point 32 pass through; the
ensure-ascii hex-escaping of non-ASCII characters is a presentation detail
orthogonal to record framing and recovery, so such characters are modelled
as passing through as well. -/
def escChar (c : Char) : List Char :=
  if c = '"' then ['\\', '"']
  else if c = '\\' then ['\\', '\\']
  else if c = '\n' then ['\\', 'n']
  else if c = '\r' then ['\\', 'r']
  else if c = '\t' then ['\\', 't']
  else if c.toNat = 8 then ['\\', 'b']
  else if c.toNat = 12 then ['\\', 'f']
  else if c.toNat < 32 then
    ['\\', 'u', '0', '0', Nat.digitChar (c.toNat / 16),
      Nat.digitChar (c.toNat % 16)]
  else [c]

/-- Escape the body of a JSON string literal. -/
def escapeL (s : List Char) : List Char := (s.map escChar).flatten

/-- The characters of the JSON literal `null`. -/
def nullChars : List Char := ['n', 'u', 'l', 'l']

/-- The characters of the JSON literal `true`. -/
def trueChars : List Char := ['t', 'r', 'u', 'e']

/-- The characters of the JSON literal `false`. -/
def falseChars : List Char := ['f', 'a', 'l', 's', 'e']

/-- Decimal digits of a natural number, most significant first. -/
def natChars (n : Nat) : List Char :=
  if n = 0 then ['0'] else (Nat.digits 10 n).reverse.map Nat.digitChar

/-- Python `repr` of an integer as emitted by `json.dumps`. -/
def intChars (n : Int) : List Char :=
  if n < 0 then '-' :: natChars (-n).toNat else natChars n.toNat

/-- An indentation run of `k` spaces. -/
def spaces (k : Nat) : List Char := List.replicate k ' '

/-- A serialized object key followed by the key separator: `"key": `. -/
def keyChars (key : String) : List Char :=
  '"' :: (escapeL key.data ++ ['"', ':', ' '])

mutual

/-- Model of `json.dumps(v, indent=2)` (line 38) at indentation anchor `k`
(the column of the construct's closing bracket): children of a composite
value sit on their own lines at `k + 2` spaces, separated by `,` plus
newline, with the closing bracket on its own line at `k` spaces; empty
composites print inline as two brackets; scalars print inline. -/
def renderV (k : Nat) : JValue → List Char
  | .null => nullChars
  | .bool true => trueChars
  | .bool false => falseChars
  | .int n => intChars n
  | .str s => '"' :: (escapeL s.data ++ ['"'])
  | .arr .nil => ['[', ']']
  | .arr (.cons h t) =>
    '[' :: '\n' :: (renderItems (k + 2) h t ++ '\n' :: (spaces k ++ [']']))
  | .obj .nil => ['{', '}']
  | .obj (.cons key v t) =>
    '{' :: '\n' ::
      (renderMembers (k + 2) key v t ++ '\n' :: (spaces k ++ ['}']))
termination_by v => sizeOf v

/-- The comma-and-newline separated items of a non-empty array, each
indented by `k` spaces. -/
def renderItems (k : Nat) (h : JValue) (t : JArray) : List Char :=
  match t with
  | .nil => spaces k ++ renderV k h
  | .cons h2 t2 =>
    spaces k ++ renderV k h ++ ',' :: '\n' :: renderItems k h2 t2
termination_by 1 + sizeOf h + sizeOf t

/-- The members of a non-empty object, each indented by `k` spaces. -/
def renderMembers (k : Nat) (key : String) (v : JValue) (t : JObject) :
    List Char :=
  match t with
  | .nil => spaces k ++ (keyChars key ++ renderV k v)
  | .cons key2 v2 t2 =>
    spaces k ++ (keyChars key ++ renderV k v) ++
      ',' :: '\n' :: renderMembers k key2 v2 t2
termination_by 1 + sizeOf v + sizeOf t

end

mutual

/-- Node count of a value; used as a fuel bound for the parser. -/
def sizeJ : JValue → Nat
  | .null => 1
  | .bool _ => 1
  | .int _ => 1
  | .str _ => 1
  | .arr a => 1 + sizeA a
  | .obj o => 1 + sizeO o

/-- Node count of array items. -/
def sizeA : JArray → Nat
  | .nil => 0
  | .cons h t => 1 + sizeJ h + sizeA t

/-- Node count of object members. -/
def sizeO : JObject → Nat
  | .nil => 0
  | .cons _ v t => 1 + sizeJ v + sizeO t

end

/-- Prefix the first line of a rendered block (used to glue indentation and
keys onto the first line of a nested value). -/
def prependFirst (p : List Char) : List (List Char) → List (List Char)
  | [] => [p]
  | l :: ls => (p ++ l) :: ls

/-- Append a suffix to the last line of a rendered block (used to glue the
item separator comma). -/
def appendLast : List (List Char) → List Char → List (List Char)
  | [], suf => [suf]
  | [l], suf => [l ++ suf]
  | l :: ls, suf => l :: appendLast ls suf

/-- Join lines with newline characters (no trailing newline). -/
def joinLines : List (List Char) → List Char
  | [] => []
  | [l] => l
  | l :: ls => l ++ '\n' :: joinLines ls

mutual

/-- The same rendering as `renderV`, produced directly as its list of
lines. -/
def renderLines (k : Nat) : JValue → List (List Char)
  | .null => [nullChars]
  | .bool true => [trueChars]
  | .bool false => [falseChars]
  | .int n => [intChars n]
  | .str s => ['"' :: (escapeL s.data ++ ['"'])]
  | .arr .nil => [['[', ']']]
  | .arr (.cons h t) =>
    ['['] :: (renderItemsLines (k + 2) h t ++ [spaces k ++ [']']])
  | .obj .nil => [['{', '}']]
  | .obj (.cons key v t) =>
    ['{'] :: (renderMembersLines (k + 2) key v t ++ [spaces k ++ ['}']])
termination_by v => sizeOf v

/-- Lines of the items of a non-empty array. -/
def renderItemsLines (k : Nat) (h : JValue) (t : JArray) :
    List (List Char) :=
  match t with
  | .nil => prependFirst (spaces k) (renderLines k h)
  | .cons h2 t2 =>
    appendLast (prependFirst (spaces k) (renderLines k h)) [','] ++
      renderItemsLines k h2 t2
termination_by 1 + sizeOf h + sizeOf t

/-- Lines of the members of a non-empty object. -/
def renderMembersLines (k : Nat) (key : String) (v : JValue) (t : JObject) :
    List (List Char) :=
  match t with
  | .nil => prependFirst (spaces k ++ keyChars key) (renderLines k v)
  | .cons key2 v2 t2 =>
    appendLast (prependFirst (spaces k ++ keyChars key) (renderLines k v))
      [','] ++ renderMembersLines k key2 v2 t2
termination_by 1 + sizeOf v + sizeOf t

end

/-- The separator rule written after every record (line 39). -/
def dashes : List Char := List.replicate 80 '-'

/-- Embedding of `log_entry` (lines 35-39): the exact text one append call
writes to the log file — the record serialized by `json.dumps(entry,
indent=2)`, a newline, then the 80-dash separator line. -/
def log_entry_text (e : JObject) : List Char :=
  renderV 0 (.obj e) ++ '\n' :: (dashes ++ ['\n'])

/-- The appended region of the log after a sequence of `log_entry` calls. -/
def logText (es : List JObject) : List Char :=
  (es.map log_entry_text).flatten

/-- The lines a single `log_entry` call contributes. -/
def entryLines (e : JObject) : List (List Char) :=
  renderLines 0 (.obj e) ++ [dashes]

/-- Value of a hexadecimal digit character. -/
def hexVal? (c : Char) : Option Nat :=
  if c.isDigit then some (c.toNat - 48)
  else if 'a' ≤ c ∧ c ≤ 'f' then some (c.toNat - 87)
  else if 'A' ≤ c ∧ c ≤ 'F' then some (c.toNat - 55)
  else none

/-- Read the body of a JSON string literal up to and including its closing
quote, undoing `escChar`; returns the decoded body and the remainder. -/
def unesc : List Char → Option (List Char × List Char)
  | [] => none
  | c :: rest =>
    if c = '"' then some ([], rest)
    else if c = '\\' then
      match rest with
      | [] => none
      | e :: rest2 =>
        if e = '"' then (unesc rest2).map (fun p => ('"' :: p.1, p.2))
        else if e = '\\' then (unesc rest2).map (fun p => ('\\' :: p.1, p.2))
        else if e = 'n' then (unesc rest2).map (fun p => ('\n' :: p.1, p.2))
        else if e = 'r' then (unesc rest2).map (fun p => ('\r' :: p.1, p.2))
        else if e = 't' then (unesc rest2).map (fun p => ('\t' :: p.1, p.2))
        else if e = 'b' then
          (unesc rest2).map (fun p => (Char.ofNat 8 :: p.1, p.2))
        else if e = 'f' then
          (unesc rest2).map (fun p => (Char.ofNat 12 :: p.1, p.2))
        else if e = 'u' then
          match rest2 with
          | a :: b :: c2 :: d :: rest3 =>
            match hexVal? a, hexVal? b, hexVal? c2, hexVal? d with
            | some x1, some x2, some x3, some x4 =>
              (unesc rest3).map (fun p =>
                (Char.ofNat (((x1 * 16 + x2) * 16 + x3) * 16 + x4) :: p.1,
                  p.2))
            | _, _, _, _ => none
          | _ => none
        else none
    else (unesc rest).map (fun p => (c :: p.1, p.2))

/-- Read a run of decimal digits; returns its value and the remainder. -/
def parseNat? (input : List Char) : Option (Nat × List Char) :=
  let ds := input.takeWhile Char.isDigit
  if ds.isEmpty then none
  else some (Nat.ofDigits 10 ((ds.map (fun c => c.toNat - 48)).reverse),
    input.dropWhile Char.isDigit)

/-- Consume an exact expected character sequence. -/
def expectChars : List Char → List Char → Option (List Char)
  | [], input => some input
  | _ :: _, [] => none
  | p :: ps, c :: cs => if c = p then expectChars ps cs else none

mutual

/-- Exact-format reader for the output of `renderV` at anchor `k`, with a
fuel budget (one unit per mutual call; the node count of the value being
read suffices). -/
def parseV : Nat → Nat → List Char → Option (JValue × List Char)
  | 0, _, _ => none
  | fuel + 1, k, input =>
    match input with
    | [] => none
    | c :: rest =>
      if c = '"' then (unesc rest).map (fun p => (JValue.str ⟨p.1⟩, p.2))
      else if c = '-' then
        (parseNat? rest).map (fun p => (JValue.int (-(p.1 : Int)), p.2))
      else if c.isDigit then
        (parseNat? (c :: rest)).map (fun p => (JValue.int (p.1 : Int), p.2))
      else if c = 'n' then
        (expectChars ['u', 'l', 'l'] rest).map (fun r => (JValue.null, r))
      else if c = 't' then
        (expectChars ['r', 'u', 'e'] rest).map
          (fun r => (JValue.bool true, r))
      else if c = 'f' then
        (expectChars ['a', 'l', 's', 'e'] rest).map
          (fun r => (JValue.bool false, r))
      else if c = '[' then
        match rest with
        | ']' :: rest2 => some (.arr .nil, rest2)
        | '\n' :: rest2 =>
          (parseItems fuel k rest2).map (fun p => (JValue.arr p.1, p.2))
        | _ => none
      else if c = '{' then
        match rest with
        | '}' :: rest2 => some (.obj .nil, rest2)
        | '\n' :: rest2 =>
          (parseMembers fuel k rest2).map (fun p => (JValue.obj p.1, p.2))
        | _ => none
      else none

/-- Read the items of a non-empty array rendered at anchor `k`, through the
closing bracket. -/
def parseItems : Nat → Nat → List Char → Option (JArray × List Char)
  | 0, _, _ => none
  | fuel + 1, k, input =>
    match expectChars (spaces (k + 2)) input with
    | none => none
    | some input1 =>
      match parseV fuel (k + 2) input1 with
      | none => none
      | some (v, r1) =>
        match r1 with
        | ',' :: '\n' :: r2 =>
          (parseItems fuel k r2).map (fun p => (JArray.cons v p.1, p.2))
        | '\n' :: r2 =>
          (expectChars (spaces k ++ [']']) r2).map
            (fun r => (JArray.cons v .nil, r))
        | _ => none

/-- Read the members of a non-empty object rendered at anchor `k`, through
the closing brace. -/
def parseMembers : Nat → Nat → List Char → Option (JObject × List Char)
  | 0, _, _ => none
  | fuel + 1, k, input =>
    match expectChars (spaces (k + 2)) input with
    | none => none
    | some input1 =>
      match input1 with
      | '"' :: rest =>
        match unesc rest with
        | none => none
        | some (key, r0) =>
          match expectChars [':', ' '] r0 with
          | none => none
          | some r1 =>
            match parseV fuel (k + 2) r1 with
            | none => none
            | some (v, r2) =>
              match r2 with
              | ',' :: '\n' :: r3 =>
                (parseMembers fuel k r3).map
                  (fun p => (JObject.cons ⟨key⟩ v p.1, p.2))
              | '\n' :: r3 =>
                (expectChars (spaces k ++ ['}']) r3).map
                  (fun r => (JObject.cons ⟨key⟩ v .nil, r))
              | _ => none
      | _ => none

end

/-- Parse one serialized record block back into a record: the whole chunk
must read as a single JSON object. -/
def parseChunk (chunk : List Char) : Option JObject :=
  match parseV chunk.length 0 chunk with
  | some (.obj o, []) => some o
  | _ => none

/-- Group the lines of the appended log region into blocks delimited by the
80-dash separator line and parse each block; `acc` holds the lines of the
current block in reverse. -/
def parseBlocksAux : List (List Char) → List (List Char) →
    Option (List JObject)
  | acc, [] => if acc.isEmpty then some [] else none
  | acc, l :: ls =>
    if l = dashes then
      match parseChunk (joinLines acc.reverse) with
      | some e => (parseBlocksAux [] ls).map (fun es => e :: es)
      | none => none
    else parseBlocksAux (l :: acc) ls

/-- Split a character stream into newline-separated lines (an ended line
per newline character, plus the trailing segment). -/
def splitNl : List Char → List (List Char)
  | [] => [[]]
  | c :: rest =>
    if c = '\n' then [] :: splitNl rest
    else
      match splitNl rest with
      | [] => [[c]]
      | l :: ls => (c :: l) :: ls

/-- Parse the appended log region: split into lines (the region ends with a
newline, so the trailing segment must be empty), then group and parse the
blocks. -/
def parseLogText (t : List Char) : Option (List JObject) :=
  match (splitNl t).getLast? with
  | some [] => parseBlocksAux [] (splitNl t).dropLast
  | _ => none

/-- A character stream whose first character is not a decimal digit (or
which is empty); what may legally follow a rendered number. -/
def digitSafe (l : List Char) : Prop :=
  ∀ c, l.head? = some c → c.isDigit = false

theorem digitSafe_nil : digitSafe [] := by
  intro c hc
  cases hc

theorem digitSafe_cons (c : Char) (l : List Char) (h : c.isDigit = false) :
    digitSafe (c :: l) := by
  intro x hx
  rw [List.head?_cons] at hx
  injection hx with hx
  rw [← hx]
  exact h

theorem digitChar_facts : ∀ d : Nat, d < 10 →
    ((Nat.digitChar d).isDigit = true ∧ Nat.digitChar d ≠ '"' ∧
      Nat.digitChar d ≠ '-' ∧ Nat.digitChar d ≠ '\n') := by decide

theorem digitChar_toNat_sub : ∀ d : Nat, d < 10 →
    (Nat.digitChar d).toNat - 48 = d := by decide

theorem digitChar16_facts : ∀ m : Nat, m < 16 →
    (hexVal? (Nat.digitChar m) = some m ∧ Nat.digitChar m ≠ '\n' ∧
      Nat.digitChar m ≠ '-') := by decide

theorem natChars_ne_nil (n : Nat) : natChars n ≠ [] := by
  rcases eq_or_ne n 0 with rfl | h
  · simp [natChars]
  · simp [natChars, h, Nat.digits_ne_nil_iff_ne_zero]

theorem natChars_mem_isDigit (n : Nat) :
    ∀ c ∈ natChars n, c.isDigit = true := by
  intro c hc
  rcases eq_or_ne n 0 with rfl | h
  · simp [natChars] at hc
    rw [hc]
    decide
  · simp only [natChars, if_neg h, List.mem_map, List.mem_reverse] at hc
    obtain ⟨d, hd, rfl⟩ := hc
    exact (digitChar_facts d (Nat.digits_lt_base (by norm_num) hd)).1

theorem intChars_ne_nil (n : Int) : intChars n ≠ [] := by
  unfold intChars
  split
  · simp
  · exact natChars_ne_nil _

theorem intChars_mem (n : Int) :
    ∀ c ∈ intChars n, c = '-' ∨ c.isDigit = true := by
  intro c hc
  unfold intChars at hc
  split at hc
  · rcases List.mem_cons.mp hc with rfl | hmem
    · exact Or.inl rfl
    · exact Or.inr (natChars_mem_isDigit _ _ hmem)
  · exact Or.inr (natChars_mem_isDigit _ _ hc)

theorem getLast?_append_right {l r : List Char} (h : r ≠ []) :
    (l ++ r).getLast? = r.getLast? := by
  rw [List.getLast?_append]
  rcases hr : r.getLast? with _ | a
  · have hs := List.getLast?_isSome.mpr h
    rw [hr] at hs
    cases hs
  · rfl

theorem takeWhile_all_append {p : Char → Bool} (A B : List Char)
    (h : ∀ a ∈ A, p a = true) :
    (A ++ B).takeWhile p = A ++ B.takeWhile p := by
  induction A with
  | nil => rfl
  | cons a A ih =>
    have ha : p a = true := h a (by simp)
    simp only [List.cons_append, List.takeWhile_cons, ha, if_true]
    rw [ih (fun x hx => h x (by simp [hx]))]

theorem dropWhile_all_append {p : Char → Bool} (A B : List Char)
    (h : ∀ a ∈ A, p a = true) :
    (A ++ B).dropWhile p = B.dropWhile p := by
  induction A with
  | nil => rfl
  | cons a A ih =>
    have ha : p a = true := h a (by simp)
    simp only [List.cons_append, List.dropWhile_cons, ha, if_true]
    exact ih (fun x hx => h x (by simp [hx]))

theorem takeWhile_head_false {p : Char → Bool} (B : List Char)
    (h : ∀ c, B.head? = some c → p c = false) : B.takeWhile p = [] := by
  cases B with
  | nil => rfl
  | cons b B => simp [List.takeWhile_cons, h b rfl]

theorem dropWhile_head_false {p : Char → Bool} (B : List Char)
    (h : ∀ c, B.head? = some c → p c = false) : B.dropWhile p = B := by
  cases B with
  | nil => rfl
  | cons b B => simp [List.dropWhile_cons, h b rfl]

theorem charsToNat_natChars (m : Nat) :
    Nat.ofDigits 10 (((natChars m).map (fun c => c.toNat - 48)).reverse) =
      m := by
  rcases eq_or_ne m 0 with rfl | h
  · decide
  · unfold natChars
    rw [if_neg h, List.map_map, List.map_reverse, List.reverse_reverse]
    have hid : (Nat.digits 10 m).map
        ((fun c => c.toNat - 48) ∘ Nat.digitChar) = Nat.digits 10 m := by
      conv_rhs => rw [← List.map_id (Nat.digits 10 m)]
      apply List.map_congr_left
      intro d hd
      exact digitChar_toNat_sub d (Nat.digits_lt_base (by norm_num) hd)
    rw [hid, Nat.ofDigits_digits]

theorem parseNat_natChars (m : Nat) (rest : List Char)
    (hr : digitSafe rest) : parseNat? (natChars m ++ rest) = some (m, rest) := by
  unfold parseNat?
  rw [takeWhile_all_append _ _ (natChars_mem_isDigit m),
    takeWhile_head_false rest (fun c hc => hr c hc), List.append_nil,
    dropWhile_all_append _ _ (natChars_mem_isDigit m),
    dropWhile_head_false rest (fun c hc => hr c hc)]
  have hne : (natChars m).isEmpty = false := by
    cases hnc : natChars m with
    | nil => exact absurd hnc (natChars_ne_nil m)
    | cons a l => rfl
  simp only [hne, Bool.false_eq_true, if_false, charsToNat_natChars]

theorem expectChars_append (P X : List Char) :
    expectChars P (P ++ X) = some X := by
  induction P with
  | nil => rfl
  | cons p P ih => simp [expectChars, ih]

theorem escChar_no_newline (c : Char) : '\n' ∉ escChar c := by
  unfold escChar
  split_ifs with h1 h2 h3 h4 h5 h6 h7 h8
  · decide
  · decide
  · decide
  · decide
  · decide
  · decide
  · decide
  · intro hmem
    have hd := (digitChar16_facts (c.toNat / 16) (by omega)).2.1
    have hm := (digitChar16_facts (c.toNat % 16) (by omega)).2.1
    simp only [List.mem_cons, List.not_mem_nil, or_false] at hmem
    rcases hmem with h | h | h | h | h | h
    · exact absurd h.symm (by decide)
    · exact absurd h.symm (by decide)
    · exact absurd h.symm (by decide)
    · exact absurd h.symm (by decide)
    · exact hd h.symm
    · exact hm h.symm
  · intro hmem
    simp only [List.mem_cons, List.not_mem_nil, or_false] at hmem
    exact h3 hmem.symm

theorem escapeL_no_newline (s : List Char) : '\n' ∉ escapeL s := by
  intro h
  unfold escapeL at h
  rw [List.mem_flatten] at h
  obtain ⟨l, hl, hmem⟩ := h
  rw [List.mem_map] at hl
  obtain ⟨c, _, rfl⟩ := hl
  exact escChar_no_newline c hmem

theorem unesc_generic (c : Char) (X : List Char) (h1 : c ≠ '"')
    (h2 : c ≠ '\\') :
    unesc (c :: X) = (unesc X).map (fun p => (c :: p.1, p.2)) := by
  rw [unesc.eq_def]
  simp [h1, h2]

theorem unesc_unicode (a b c2 d : Char) (x1 x2 x3 x4 : Nat) (X : List Char)
    (ha : hexVal? a = some x1) (hb : hexVal? b = some x2)
    (hc : hexVal? c2 = some x3) (hd : hexVal? d = some x4) :
    unesc ('\\' :: 'u' :: a :: b :: c2 :: d :: X) =
      (unesc X).map (fun p =>
        (Char.ofNat (((x1 * 16 + x2) * 16 + x3) * 16 + x4) :: p.1, p.2)) := by
  rw [unesc.eq_def]
  simp [ha, hb, hc, hd]

theorem unesc_escChar (c : Char) (X : List Char) :
    unesc (escChar c ++ X) = (unesc X).map (fun p => (c :: p.1, p.2)) := by
  unfold escChar
  split_ifs with h1 h2 h3 h4 h5 h6 h7 h8
  · subst h1
    rw [unesc.eq_def]
    simp
  · subst h2
    rw [unesc.eq_def]
    simp
  · subst h3
    rw [unesc.eq_def]
    simp
  · subst h4
    rw [unesc.eq_def]
    simp
  · subst h5
    rw [unesc.eq_def]
    simp
  · have hc : c = Char.ofNat 8 := by rw [← h6, Char.ofNat_toNat]
    subst hc
    rw [unesc.eq_def]
    simp
  · have hc : c = Char.ofNat 12 := by rw [← h7, Char.ofNat_toNat]
    subst hc
    rw [unesc.eq_def]
    simp
  · have hdiv : c.toNat / 16 < 16 := by omega
    have hmod : c.toNat % 16 < 16 := by omega
    simp only [List.cons_append, List.nil_append]
    rw [unesc_unicode '0' '0' _ _ 0 0 (c.toNat / 16) (c.toNat % 16) X
      (by decide) (by decide) (digitChar16_facts _ hdiv).1
      (digitChar16_facts _ hmod).1]
    have hval : ((0 * 16 + 0) * 16 + c.toNat / 16) * 16 + c.toNat % 16 =
        c.toNat := by omega
    rw [hval, Char.ofNat_toNat]
  · simp only [List.singleton_append]
    exact unesc_generic c X h1 h2

theorem unesc_escape (s rest : List Char) :
    unesc (escapeL s ++ '"' :: rest) = some (s, rest) := by
  induction s with
  | nil =>
    show unesc ('"' :: rest) = some ([], rest)
    rw [unesc.eq_def]
    simp
  | cons c s ih =>
    have he : escapeL (c :: s) = escChar c ++ escapeL s := by
      simp [escapeL]
    rw [he, List.append_assoc, unesc_escChar, ih]
    rfl

theorem sizeJ_pos (v : JValue) : 1 ≤ sizeJ v := by
  cases v with
  | null => exact Nat.le_refl 1
  | bool b => exact Nat.le_refl 1
  | int n => exact Nat.le_refl 1
  | str s => exact Nat.le_refl 1
  | arr a =>
    show 1 ≤ 1 + sizeA a
    omega
  | obj o =>
    show 1 ≤ 1 + sizeO o
    omega

theorem parseV_quote (fuel k : Nat) (X : List Char) :
    parseV (fuel + 1) k ('"' :: X) =
      (unesc X).map (fun p => (JValue.str ⟨p.1⟩, p.2)) := rfl

theorem parseV_minus (fuel k : Nat) (X : List Char) :
    parseV (fuel + 1) k ('-' :: X) =
      (parseNat? X).map (fun p => (JValue.int (-(p.1 : Int)), p.2)) := rfl

theorem parseV_null (fuel k : Nat) (X : List Char) :
    parseV (fuel + 1) k ('n' :: 'u' :: 'l' :: 'l' :: X) =
      some (.null, X) := rfl

theorem parseV_true (fuel k : Nat) (X : List Char) :
    parseV (fuel + 1) k ('t' :: 'r' :: 'u' :: 'e' :: X) =
      some (.bool true, X) := rfl

theorem parseV_false (fuel k : Nat) (X : List Char) :
    parseV (fuel + 1) k ('f' :: 'a' :: 'l' :: 's' :: 'e' :: X) =
      some (.bool false, X) := rfl

theorem parseV_arr_nil (fuel k : Nat) (X : List Char) :
    parseV (fuel + 1) k ('[' :: ']' :: X) = some (.arr .nil, X) := rfl

theorem parseV_arr_cons (fuel k : Nat) (X : List Char) :
    parseV (fuel + 1) k ('[' :: '\n' :: X) =
      (parseItems fuel k X).map (fun p => (JValue.arr p.1, p.2)) := rfl

theorem parseV_obj_nil (fuel k : Nat) (X : List Char) :
    parseV (fuel + 1) k ('{' :: '}' :: X) = some (.obj .nil, X) := rfl

theorem parseV_obj_cons (fuel k : Nat) (X : List Char) :
    parseV (fuel + 1) k ('{' :: '\n' :: X) =
      (parseMembers fuel k X).map (fun p => (JValue.obj p.1, p.2)) := rfl

theorem parseV_digit (fuel k : Nat) (c : Char) (X : List Char)
    (hd : c.isDigit = true) :
    parseV (fuel + 1) k (c :: X) =
      (parseNat? (c :: X)).map (fun p => (JValue.int (p.1 : Int), p.2)) := by
  have h1 : c ≠ '"' := by
    rintro rfl
    exact absurd hd (by decide)
  have h2 : c ≠ '-' := by
    rintro rfl
    exact absurd hd (by decide)
  simp only [parseV]
  rw [if_neg h1, if_neg h2, if_pos hd]

/-- The exact-format reader inverts the renderer: reading the rendering of
any value (followed by anything that does not extend a number token)
recovers the value, given fuel at least the node count; mutual statement
for values, array items and object members, proved by induction on the
fuel. -/
theorem rt_all (fuel : Nat) :
    (∀ (v : JValue) (k : Nat) (rest : List Char), sizeJ v ≤ fuel →
      digitSafe rest →
      parseV fuel k (renderV k v ++ rest) = some (v, rest)) ∧
    (∀ (hv : JValue) (t : JArray) (k : Nat) (rest : List Char),
      sizeA (.cons hv t) ≤ fuel →
      parseItems fuel k
        (renderItems (k + 2) hv t ++ '\n' :: (spaces k ++ (']' :: rest))) =
        some (.cons hv t, rest)) ∧
    (∀ (key : String) (v : JValue) (t : JObject) (k : Nat)
      (rest : List Char), sizeO (.cons key v t) ≤ fuel →
      parseMembers fuel k
        (renderMembers (k + 2) key v t ++
          '\n' :: (spaces k ++ ('}' :: rest))) =
        some (.cons key v t, rest)) := by
  induction fuel with
  | zero =>
    refine ⟨?_, ?_, ?_⟩
    · intro v k rest hf _
      have := sizeJ_pos v
      omega
    · intro hv t k rest hf
      have := sizeJ_pos hv
      simp only [sizeA] at hf
      omega
    · intro key v t k rest hf
      have := sizeJ_pos v
      simp only [sizeO] at hf
      omega
  | succ fuel ih =>
    obtain ⟨ihV, ihI, ihM⟩ := ih
    refine ⟨?_, ?_, ?_⟩
    · intro v k rest hf hr
      cases v with
      | null =>
        have h1 : renderV k .null = nullChars := by
          simp [renderV]
        rw [h1]
        exact parseV_null fuel k rest
      | bool b =>
        cases b with
        | false =>
          have h1 : renderV k (.bool false) = falseChars := by
            simp [renderV]
          rw [h1]
          exact parseV_false fuel k rest
        | true =>
          have h1 : renderV k (.bool true) = trueChars := by
            simp [renderV]
          rw [h1]
          exact parseV_true fuel k rest
      | int n =>
        by_cases hneg : n < 0
        · have h1 : renderV k (.int n) = '-' :: natChars (-n).toNat := by
            simp [renderV, intChars, hneg]
          rw [h1, List.cons_append, parseV_minus,
            parseNat_natChars _ rest hr]
          have h2 : (-(((-n).toNat : Nat) : Int)) = n := by
            rw [Int.toNat_of_nonneg (by omega)]
            omega
          show some (JValue.int (-(((-n).toNat : Nat) : Int)), rest) =
            some (JValue.int n, rest)
          rw [h2]
        · have h1 : renderV k (.int n) = natChars n.toNat := by
            simp [renderV, intChars, hneg]
          obtain ⟨d, ds, hnc⟩ : ∃ d ds, natChars n.toNat = d :: ds := by
            cases hx : natChars n.toNat with
            | nil => exact absurd hx (natChars_ne_nil _)
            | cons d ds => exact ⟨d, ds, rfl⟩
          have hd : d.isDigit = true :=
            natChars_mem_isDigit _ d (by rw [hnc]; exact List.mem_cons_self d ds)
          rw [h1, hnc, List.cons_append, parseV_digit fuel k d _ hd,
            ← List.cons_append, ← hnc, parseNat_natChars _ rest hr]
          have h2 : ((n.toNat : Nat) : Int) = n :=
            Int.toNat_of_nonneg (by omega)
          show some (JValue.int ((n.toNat : Nat) : Int), rest) =
            some (JValue.int n, rest)
          rw [h2]
      | str s =>
        have h1 : renderV k (.str s) = '"' :: (escapeL s.data ++ ['"']) := by
          simp [renderV]
        rw [h1, List.cons_append, parseV_quote, List.append_assoc,
          List.singleton_append, unesc_escape]
        rfl
      | arr a =>
        cases a with
        | nil =>
          have h1 : renderV k (.arr .nil) = ['[', ']'] := by
            simp [renderV]
          rw [h1]
          exact parseV_arr_nil fuel k rest
        | cons h t =>
          have h1 : renderV k (.arr (.cons h t)) =
              '[' :: '\n' ::
                (renderItems (k + 2) h t ++ '\n' :: (spaces k ++ [']'])) := by
            simp [renderV]
          rw [h1, List.cons_append, List.cons_append, parseV_arr_cons]
          have hassoc :
              (renderItems (k + 2) h t ++ '\n' :: (spaces k ++ [']'])) ++
                rest =
              renderItems (k + 2) h t ++
                '\n' :: (spaces k ++ (']' :: rest)) := by
            simp
          rw [hassoc]
          have hsz : sizeA (.cons h t) ≤ fuel := by
            have : sizeJ (.arr (.cons h t)) = 1 + sizeA (.cons h t) := by
              simp [sizeJ]
            omega
          rw [ihI h t k rest hsz]
          rfl
      | obj o =>
        cases o with
        | nil =>
          have h1 : renderV k (.obj .nil) = ['{', '}'] := by
            simp [renderV]
          rw [h1]
          exact parseV_obj_nil fuel k rest
        | cons key v t =>
          have h1 : renderV k (.obj (.cons key v t)) =
              '{' :: '\n' ::
                (renderMembers (k + 2) key v t ++
                  '\n' :: (spaces k ++ ['}'])) := by
            simp [renderV]
          rw [h1, List.cons_append, List.cons_append, parseV_obj_cons]
          have hassoc :
              (renderMembers (k + 2) key v t ++
                '\n' :: (spaces k ++ ['}'])) ++ rest =
              renderMembers (k + 2) key v t ++
                '\n' :: (spaces k ++ ('}' :: rest)) := by
            simp
          rw [hassoc]
          have hsz : sizeO (.cons key v t) ≤ fuel := by
            have : sizeJ (.obj (.cons key v t)) =
                1 + sizeO (.cons key v t) := by
              simp [sizeJ]
            omega
          rw [ihM key v t k rest hsz]
          rfl
    · intro hv t k rest hf
      cases t with
      | nil =>
        have h1 : renderItems (k + 2) hv .nil =
            spaces (k + 2) ++ renderV (k + 2) hv := by
          simp [renderItems]
        rw [h1, List.append_assoc]
        have hsz : sizeJ hv ≤ fuel := by
          simp [sizeA] at hf
          omega
        have hv1 : parseV fuel (k + 2)
            (renderV (k + 2) hv ++ '\n' :: (spaces k ++ (']' :: rest))) =
            some (hv, '\n' :: (spaces k ++ (']' :: rest))) :=
          ihV hv (k + 2) _ hsz (digitSafe_cons _ _ (by decide))
        have hexp2 : expectChars (spaces k ++ [']'])
            (spaces k ++ (']' :: rest)) = some rest := by
          rw [show spaces k ++ (']' :: rest) =
            (spaces k ++ [']']) ++ rest by simp]
          exact expectChars_append _ _
        simp only [parseItems, expectChars_append, hv1, hexp2]
        rfl
      | cons hv2 t2 =>
        have h1 : renderItems (k + 2) hv (.cons hv2 t2) =
            spaces (k + 2) ++ renderV (k + 2) hv ++
              ',' :: '\n' :: renderItems (k + 2) hv2 t2 := by
          simp [renderItems]
        rw [h1]
        have hassoc :
            (spaces (k + 2) ++ renderV (k + 2) hv ++
              ',' :: '\n' :: renderItems (k + 2) hv2 t2) ++
              '\n' :: (spaces k ++ (']' :: rest)) =
            spaces (k + 2) ++ (renderV (k + 2) hv ++
              ',' :: '\n' :: (renderItems (k + 2) hv2 t2 ++
                '\n' :: (spaces k ++ (']' :: rest)))) := by
          simp
        rw [hassoc]
        have hsz : sizeJ hv ≤ fuel := by
          simp [sizeA] at hf
          omega
        have hsz2 : sizeA (.cons hv2 t2) ≤ fuel := by
          have hp := sizeJ_pos hv
          simp [sizeA] at hf ⊢
          omega
        have hv1 : parseV fuel (k + 2)
            (renderV (k + 2) hv ++
              ',' :: '\n' :: (renderItems (k + 2) hv2 t2 ++
                '\n' :: (spaces k ++ (']' :: rest)))) =
            some (hv, ',' :: '\n' :: (renderItems (k + 2) hv2 t2 ++
              '\n' :: (spaces k ++ (']' :: rest)))) :=
          ihV hv (k + 2) _ hsz (digitSafe_cons _ _ (by decide))
        simp only [parseItems, expectChars_append, hv1,
          ihI hv2 t2 k rest hsz2]
        rfl
    · intro key v t k rest hf
      cases t with
      | nil =>
        have h1 : renderMembers (k + 2) key v .nil =
            spaces (k + 2) ++ (keyChars key ++ renderV (k + 2) v) := by
          simp [renderMembers]
        rw [h1, List.append_assoc]
        have hkey : keyChars key ++ renderV (k + 2) v ++
            '\n' :: (spaces k ++ ('}' :: rest)) =
            '"' :: (escapeL key.data ++
              '"' :: ':' :: ' ' ::
                (renderV (k + 2) v ++
                  '\n' :: (spaces k ++ ('}' :: rest)))) := by
          simp [keyChars]
        have hsz : sizeJ v ≤ fuel := by
          simp [sizeO] at hf
          omega
        have hv1 : parseV fuel (k + 2)
            (renderV (k + 2) v ++ '\n' :: (spaces k ++ ('}' :: rest))) =
            some (v, '\n' :: (spaces k ++ ('}' :: rest))) :=
          ihV v (k + 2) _ hsz (digitSafe_cons _ _ (by decide))
        have hexp2 : expectChars (spaces k ++ ['}'])
            (spaces k ++ ('}' :: rest)) = some rest := by
          rw [show spaces k ++ ('}' :: rest) =
            (spaces k ++ ['}']) ++ rest by simp]
          exact expectChars_append _ _
        have hkey2 : unesc (escapeL key.data ++
            '"' :: ':' :: ' ' ::
              (renderV (k + 2) v ++
                '\n' :: (spaces k ++ ('}' :: rest)))) =
            some (key.data, ':' :: ' ' ::
              (renderV (k + 2) v ++
                '\n' :: (spaces k ++ ('}' :: rest)))) :=
          unesc_escape _ _
        have hcol : expectChars [':', ' ']
            (':' :: ' ' ::
              (renderV (k + 2) v ++
                '\n' :: (spaces k ++ ('}' :: rest)))) =
            some (renderV (k + 2) v ++
              '\n' :: (spaces k ++ ('}' :: rest))) := rfl
        simp only [parseMembers, expectChars_append, hkey, hkey2, hcol,
          hv1, hexp2]
        rfl
      | cons key2 v2 t2 =>
        have h1 : renderMembers (k + 2) key v (.cons key2 v2 t2) =
            spaces (k + 2) ++ (keyChars key ++ renderV (k + 2) v) ++
              ',' :: '\n' :: renderMembers (k + 2) key2 v2 t2 := by
          simp [renderMembers]
        rw [h1]
        have hassoc :
            (spaces (k + 2) ++ (keyChars key ++ renderV (k + 2) v) ++
              ',' :: '\n' :: renderMembers (k + 2) key2 v2 t2) ++
              '\n' :: (spaces k ++ ('}' :: rest)) =
            spaces (k + 2) ++ ((keyChars key ++ renderV (k + 2) v) ++
              ',' :: '\n' :: (renderMembers (k + 2) key2 v2 t2 ++
                '\n' :: (spaces k ++ ('}' :: rest)))) := by
          simp
        rw [hassoc]
        have hkey : keyChars key ++ renderV (k + 2) v ++
            ',' :: '\n' :: (renderMembers (k + 2) key2 v2 t2 ++
              '\n' :: (spaces k ++ ('}' :: rest))) =
            '"' :: (escapeL key.data ++
              '"' :: ':' :: ' ' ::
                (renderV (k + 2) v ++
                  ',' :: '\n' :: (renderMembers (k + 2) key2 v2 t2 ++
                    '\n' :: (spaces k ++ ('}' :: rest))))) := by
          simp [keyChars]
        have hsz : sizeJ v ≤ fuel := by
          simp [sizeO] at hf
          omega
        have hsz2 : sizeO (.cons key2 v2 t2) ≤ fuel := by
          have hp := sizeJ_pos v
          simp [sizeO] at hf ⊢
          omega
        have hv1 : parseV fuel (k + 2)
            (renderV (k + 2) v ++
              ',' :: '\n' :: (renderMembers (k + 2) key2 v2 t2 ++
                '\n' :: (spaces k ++ ('}' :: rest)))) =
            some (v, ',' :: '\n' :: (renderMembers (k + 2) key2 v2 t2 ++
              '\n' :: (spaces k ++ ('}' :: rest)))) :=
          ihV v (k + 2) _ hsz (digitSafe_cons _ _ (by decide))
        have hkey2 : unesc (escapeL key.data ++
            '"' :: ':' :: ' ' ::
              (renderV (k + 2) v ++
                ',' :: '\n' :: (renderMembers (k + 2) key2 v2 t2 ++
                  '\n' :: (spaces k ++ ('}' :: rest))))) =
            some (key.data, ':' :: ' ' ::
              (renderV (k + 2) v ++
                ',' :: '\n' :: (renderMembers (k + 2) key2 v2 t2 ++
                  '\n' :: (spaces k ++ ('}' :: rest))))) :=
          unesc_escape _ _
        have hcol : expectChars [':', ' ']
            (':' :: ' ' ::
              (renderV (k + 2) v ++
                ',' :: '\n' :: (renderMembers (k + 2) key2 v2 t2 ++
                  '\n' :: (spaces k ++ ('}' :: rest))))) =
            some (renderV (k + 2) v ++
              ',' :: '\n' :: (renderMembers (k + 2) key2 v2 t2 ++
                '\n' :: (spaces k ++ ('}' :: rest)))) := rfl
        simp only [parseMembers, expectChars_append, hkey, hkey2, hcol,
          hv1, ihM key2 v2 t2 k rest hsz2]
        rfl

/-- Node count never exceeds rendered length (so the length of a chunk is
always enough parser fuel); mutual statement by fuel induction. -/
theorem sizeLe_all (n : Nat) :
    (∀ (v : JValue) (k : Nat), sizeJ v ≤ n →
      sizeJ v ≤ (renderV k v).length) ∧
    (∀ (hv : JValue) (t : JArray) (k : Nat), sizeA (.cons hv t) ≤ n →
      sizeA (.cons hv t) ≤ (renderItems k hv t).length + 1) ∧
    (∀ (key : String) (v : JValue) (t : JObject) (k : Nat),
      sizeO (.cons key v t) ≤ n →
      sizeO (.cons key v t) ≤ (renderMembers k key v t).length + 1) := by
  induction n with
  | zero =>
    refine ⟨?_, ?_, ?_⟩
    · intro v k hf
      have := sizeJ_pos v
      omega
    · intro hv t k hf
      have := sizeJ_pos hv
      simp only [sizeA] at hf
      omega
    · intro key v t k hf
      have := sizeJ_pos v
      simp only [sizeO] at hf
      omega
  | succ n ih =>
    obtain ⟨ihV, ihI, ihM⟩ := ih
    refine ⟨?_, ?_, ?_⟩
    · intro v k hf
      cases v with
      | null => simp [renderV, sizeJ, nullChars]
      | bool b => cases b <;> simp [renderV, sizeJ, trueChars, falseChars]
      | int m =>
        have h1 : 1 ≤ (intChars m).length := by
          have := intChars_ne_nil m
          cases hx : intChars m with
          | nil => exact absurd hx this
          | cons a l => simp
        simp only [renderV, sizeJ]
        exact h1
      | str s =>
        simp [renderV, sizeJ]
      | arr a =>
        cases a with
        | nil => simp [renderV, sizeJ, sizeA]
        | cons hv t =>
          have hsz : sizeA (.cons hv t) ≤ n := by
            simp only [sizeJ] at hf
            omega
          have h1 := ihI hv t (k + 2) hsz
          simp only [renderV, sizeJ, List.length_cons, List.length_append,
            spaces, List.length_replicate] at h1 ⊢
          omega
      | obj o =>
        cases o with
        | nil => simp [renderV, sizeJ, sizeO]
        | cons key v t =>
          have hsz : sizeO (.cons key v t) ≤ n := by
            simp only [sizeJ] at hf
            omega
          have h1 := ihM key v t (k + 2) hsz
          simp only [renderV, sizeJ, List.length_cons, List.length_append,
            spaces, List.length_replicate] at h1 ⊢
          omega
    · intro hv t k hf
      cases t with
      | nil =>
        have hsz : sizeJ hv ≤ n := by
          simp only [sizeA] at hf
          omega
        have h1 := ihV hv k hsz
        simp only [renderItems, sizeA, sizeJ, List.length_append, spaces,
          List.length_replicate]
        omega
      | cons hv2 t2 =>
        have hp := sizeJ_pos hv
        have hsz : sizeJ hv ≤ n := by
          simp only [sizeA] at hf
          omega
        have hsz2 : sizeA (.cons hv2 t2) ≤ n := by
          simp only [sizeA] at hf ⊢
          omega
        have h1 := ihV hv k hsz
        have h2 := ihI hv2 t2 k hsz2
        simp only [renderItems, sizeA, List.length_append, List.length_cons,
          spaces, List.length_replicate] at h2 ⊢
        omega
    · intro key v t k hf
      cases t with
      | nil =>
        have hsz : sizeJ v ≤ n := by
          simp only [sizeO] at hf
          omega
        have h1 := ihV v k hsz
        simp only [renderMembers, sizeO, List.length_append, spaces,
          List.length_replicate]
        omega
      | cons key2 v2 t2 =>
        have hp := sizeJ_pos v
        have hsz : sizeJ v ≤ n := by
          simp only [sizeO] at hf
          omega
        have hsz2 : sizeO (.cons key2 v2 t2) ≤ n := by
          simp only [sizeO] at hf ⊢
          omega
        have h1 := ihV v k hsz
        have h2 := ihM key2 v2 t2 k hsz2
        simp only [renderMembers, sizeO, List.length_append,
          List.length_cons, spaces, List.length_replicate] at h2 ⊢
        omega

theorem joinLines_cons (l : List Char) (ls : List (List Char))
    (h : ls ≠ []) : joinLines (l :: ls) = l ++ '\n' :: joinLines ls := by
  cases ls with
  | nil => contradiction
  | cons l2 ls2 => rfl

theorem prependFirst_ne_nil (p : List Char) (ls : List (List Char)) :
    prependFirst p ls ≠ [] := by
  cases ls <;> simp [prependFirst]

theorem appendLast_ne_nil (ls : List (List Char)) (suf : List Char) :
    appendLast ls suf ≠ [] := by
  cases ls with
  | nil => simp [appendLast]
  | cons l ls =>
    cases ls with
    | nil => simp [appendLast]
    | cons l2 ls2 => simp [appendLast]

theorem renderLines_ne_nil (k : Nat) (v : JValue) : renderLines k v ≠ [] := by
  cases v with
  | null => simp [renderLines]
  | bool b => cases b <;> simp [renderLines]
  | int n => simp [renderLines]
  | str s => simp [renderLines]
  | arr a => cases a <;> simp [renderLines]
  | obj o => cases o <;> simp [renderLines]

theorem renderItemsLines_ne_nil (k : Nat) (hv : JValue) (t : JArray) :
    renderItemsLines k hv t ≠ [] := by
  cases t with
  | nil =>
    rw [show renderItemsLines k hv .nil =
      prependFirst (spaces k) (renderLines k hv) by simp [renderItemsLines]]
    exact prependFirst_ne_nil _ _
  | cons hv2 t2 =>
    rw [show renderItemsLines k hv (.cons hv2 t2) =
      appendLast (prependFirst (spaces k) (renderLines k hv)) [','] ++
        renderItemsLines k hv2 t2 by simp [renderItemsLines]]
    intro hcontra
    exact appendLast_ne_nil _ _ (List.append_eq_nil.mp hcontra).1

theorem renderMembersLines_ne_nil (k : Nat) (key : String) (v : JValue)
    (t : JObject) : renderMembersLines k key v t ≠ [] := by
  cases t with
  | nil =>
    rw [show renderMembersLines k key v .nil =
      prependFirst (spaces k ++ keyChars key) (renderLines k v) by
        simp [renderMembersLines]]
    exact prependFirst_ne_nil _ _
  | cons key2 v2 t2 =>
    rw [show renderMembersLines k key v (.cons key2 v2 t2) =
      appendLast (prependFirst (spaces k ++ keyChars key)
        (renderLines k v)) [','] ++ renderMembersLines k key2 v2 t2 by
        simp [renderMembersLines]]
    intro hcontra
    exact appendLast_ne_nil _ _ (List.append_eq_nil.mp hcontra).1

theorem joinLines_prependFirst (p : List Char) (ls : List (List Char))
    (h : ls ≠ []) : joinLines (prependFirst p ls) = p ++ joinLines ls := by
  cases ls with
  | nil => contradiction
  | cons l ls =>
    cases ls with
    | nil => rfl
    | cons l2 ls2 =>
      show (p ++ l) ++ '\n' :: joinLines (l2 :: ls2) =
        p ++ (l ++ '\n' :: joinLines (l2 :: ls2))
      rw [List.append_assoc]

theorem joinLines_appendLast (ls : List (List Char)) (suf : List Char)
    (h : ls ≠ []) : joinLines (appendLast ls suf) = joinLines ls ++ suf := by
  induction ls with
  | nil => contradiction
  | cons l ls ih =>
    cases ls with
    | nil => rfl
    | cons l2 ls2 =>
      rw [show appendLast (l :: l2 :: ls2) suf =
        l :: appendLast (l2 :: ls2) suf from rfl]
      rw [joinLines_cons _ _ (appendLast_ne_nil _ _),
        joinLines_cons _ _ (by simp), ih (by simp)]
      simp

theorem joinLines_append (A B : List (List Char)) (ha : A ≠ [])
    (hb : B ≠ []) :
    joinLines (A ++ B) = joinLines A ++ '\n' :: joinLines B := by
  induction A with
  | nil => contradiction
  | cons l A ih =>
    cases A with
    | nil =>
      rw [show ([l] : List (List Char)) ++ B = l :: B from rfl,
        joinLines_cons _ _ hb]
      rfl
    | cons l2 A2 =>
      rw [show (l :: l2 :: A2) ++ B = l :: ((l2 :: A2) ++ B) from rfl,
        joinLines_cons _ _ (by simp), joinLines_cons _ _ (by simp),
        ih (by simp)]
      simp

/-- The line-list rendering joined with newlines is exactly the flat
rendering; mutual statement by fuel induction. -/
theorem joinRender_all (n : Nat) :
    (∀ (v : JValue) (k : Nat), sizeJ v ≤ n →
      joinLines (renderLines k v) = renderV k v) ∧
    (∀ (hv : JValue) (t : JArray) (k : Nat), sizeA (.cons hv t) ≤ n →
      joinLines (renderItemsLines k hv t) = renderItems k hv t) ∧
    (∀ (key : String) (v : JValue) (t : JObject) (k : Nat),
      sizeO (.cons key v t) ≤ n →
      joinLines (renderMembersLines k key v t) =
        renderMembers k key v t) := by
  induction n with
  | zero =>
    refine ⟨?_, ?_, ?_⟩
    · intro v k hf
      have := sizeJ_pos v
      omega
    · intro hv t k hf
      have := sizeJ_pos hv
      simp only [sizeA] at hf
      omega
    · intro key v t k hf
      have := sizeJ_pos v
      simp only [sizeO] at hf
      omega
  | succ n ih =>
    obtain ⟨ihV, ihI, ihM⟩ := ih
    refine ⟨?_, ?_, ?_⟩
    · intro v k hf
      cases v with
      | null => simp [renderLines, renderV, joinLines]
      | bool b => cases b <;> simp [renderLines, renderV, joinLines]
      | int m => simp [renderLines, renderV, joinLines]
      | str s => simp [renderLines, renderV, joinLines]
      | arr a =>
        cases a with
        | nil => simp [renderLines, renderV, joinLines]
        | cons hv t =>
          have hsz : sizeA (.cons hv t) ≤ n := by
            simp only [sizeJ] at hf
            omega
          have h1 : renderLines k (.arr (.cons hv t)) =
              ['['] :: (renderItemsLines (k + 2) hv t ++
                [spaces k ++ [']']]) := by
            simp [renderLines]
          rw [h1, joinLines_cons _ _ (by simp),
            joinLines_append _ _ (renderItemsLines_ne_nil _ _ _) (by simp),
            ihI hv t (k + 2) hsz]
          have h2 : renderV k (.arr (.cons hv t)) =
              '[' :: '\n' :: (renderItems (k + 2) hv t ++
                '\n' :: (spaces k ++ [']'])) := by
            simp [renderV]
          rw [h2]
          rfl
      | obj o =>
        cases o with
        | nil => simp [renderLines, renderV, joinLines]
        | cons key v t =>
          have hsz : sizeO (.cons key v t) ≤ n := by
            simp only [sizeJ] at hf
            omega
          have h1 : renderLines k (.obj (.cons key v t)) =
              ['{'] :: (renderMembersLines (k + 2) key v t ++
                [spaces k ++ ['}']]) := by
            simp [renderLines]
          rw [h1, joinLines_cons _ _ (by simp),
            joinLines_append _ _ (renderMembersLines_ne_nil _ _ _ _)
              (by simp),
            ihM key v t (k + 2) hsz]
          have h2 : renderV k (.obj (.cons key v t)) =
              '{' :: '\n' :: (renderMembers (k + 2) key v t ++
                '\n' :: (spaces k ++ ['}'])) := by
            simp [renderV]
          rw [h2]
          rfl
    · intro hv t k hf
      cases t with
      | nil =>
        have hsz : sizeJ hv ≤ n := by
          simp only [sizeA] at hf
          omega
        have h1 : renderItemsLines k hv .nil =
            prependFirst (spaces k) (renderLines k hv) := by
          simp [renderItemsLines]
        rw [h1, joinLines_prependFirst _ _ (renderLines_ne_nil _ _),
          ihV hv k hsz]
        simp [renderItems]
      | cons hv2 t2 =>
        have hp := sizeJ_pos hv
        have hsz : sizeJ hv ≤ n := by
          simp only [sizeA] at hf
          omega
        have hsz2 : sizeA (.cons hv2 t2) ≤ n := by
          simp only [sizeA] at hf ⊢
          omega
        have h1 : renderItemsLines k hv (.cons hv2 t2) =
            appendLast (prependFirst (spaces k) (renderLines k hv)) [','] ++
              renderItemsLines k hv2 t2 := by
          simp [renderItemsLines]
        rw [h1,
          joinLines_append _ _ (appendLast_ne_nil _ _)
            (renderItemsLines_ne_nil _ _ _),
          joinLines_appendLast _ _ (prependFirst_ne_nil _ _),
          joinLines_prependFirst _ _ (renderLines_ne_nil _ _),
          ihV hv k hsz, ihI hv2 t2 k hsz2]
        have h2 : renderItems k hv (.cons hv2 t2) =
            spaces k ++ renderV k hv ++
              ',' :: '\n' :: renderItems k hv2 t2 := by
          simp [renderItems]
        rw [h2]
        simp
    · intro key v t k hf
      cases t with
      | nil =>
        have hsz : sizeJ v ≤ n := by
          simp only [sizeO] at hf
          omega
        have h1 : renderMembersLines k key v .nil =
            prependFirst (spaces k ++ keyChars key) (renderLines k v) := by
          simp [renderMembersLines]
        rw [h1, joinLines_prependFirst _ _ (renderLines_ne_nil _ _),
          ihV v k hsz]
        simp [renderMembers]
      | cons key2 v2 t2 =>
        have hp := sizeJ_pos v
        have hsz : sizeJ v ≤ n := by
          simp only [sizeO] at hf
          omega
        have hsz2 : sizeO (.cons key2 v2 t2) ≤ n := by
          simp only [sizeO] at hf ⊢
          omega
        have h1 : renderMembersLines k key v (.cons key2 v2 t2) =
            appendLast (prependFirst (spaces k ++ keyChars key)
              (renderLines k v)) [','] ++
              renderMembersLines k key2 v2 t2 := by
          simp [renderMembersLines]
        rw [h1,
          joinLines_append _ _ (appendLast_ne_nil _ _)
            (renderMembersLines_ne_nil _ _ _ _),
          joinLines_appendLast _ _ (prependFirst_ne_nil _ _),
          joinLines_prependFirst _ _ (renderLines_ne_nil _ _),
          ihV v k hsz, ihM key2 v2 t2 k hsz2]
        have h2 : renderMembers k key v (.cons key2 v2 t2) =
            spaces k ++ (keyChars key ++ renderV k v) ++
              ',' :: '\n' :: renderMembers k key2 v2 t2 := by
          simp [renderMembers]
        rw [h2]
        simp

/-- What makes a rendered line safe for framing: it is nonempty, contains
no newline (so it really is one line of the file), and does not end in a
dash (so it can never equal the 80-dash separator line). -/
def lineGood (l : List Char) : Prop :=
  l ≠ [] ∧ '\n' ∉ l ∧ l.getLast? ≠ some '-'

theorem keyChars_no_newline (key : String) : '\n' ∉ keyChars key := by
  intro h
  simp only [keyChars, List.mem_cons, List.mem_append] at h
  rcases h with h | h | h
  · exact absurd h (by decide)
  · exact escapeL_no_newline _ h
  · simp at h

theorem spaces_no_newline (k : Nat) : '\n' ∉ spaces k := by
  intro h
  rw [spaces, List.mem_replicate] at h
  exact absurd h.2 (by decide)

theorem lineGood_prependFirst (p : List Char) (ls : List (List Char))
    (hp : '\n' ∉ p) (hgood : ∀ x ∈ ls, lineGood x) (hne : ls ≠ []) :
    ∀ l ∈ prependFirst p ls, lineGood l := by
  cases ls with
  | nil => contradiction
  | cons l0 ls0 =>
    intro l hl
    rcases List.mem_cons.mp hl with rfl | hl
    · obtain ⟨h1, h2, h3⟩ := hgood l0 (List.mem_cons_self _ _)
      refine ⟨?_, ?_, ?_⟩
      · intro hcontra
        exact h1 (List.append_eq_nil.mp hcontra).2
      · intro hcontra
        rcases List.mem_append.mp hcontra with h | h
        · exact hp h
        · exact h2 h
      · rw [getLast?_append_right h1]
        exact h3
    · exact hgood l (List.mem_cons_of_mem _ hl)

theorem lineGood_appendLast (ls : List (List Char))
    (hgood : ∀ x ∈ ls, lineGood x) (hne : ls ≠ []) :
    ∀ l ∈ appendLast ls [','], lineGood l := by
  induction ls with
  | nil => contradiction
  | cons l0 ls0 ih =>
    cases ls0 with
    | nil =>
      intro l hl
      rw [show appendLast [l0] [','] = [l0 ++ [',']] from rfl] at hl
      rcases List.mem_cons.mp hl with rfl | hl
      · obtain ⟨h1, h2, h3⟩ := hgood l0 (List.mem_cons_self _ _)
        refine ⟨by simp, ?_, ?_⟩
        · intro hcontra
          rcases List.mem_append.mp hcontra with h | h
          · exact h2 h
          · simp at h
        · rw [List.getLast?_concat]
          decide
      · simp at hl
    | cons l1 ls1 =>
      intro l hl
      rw [show appendLast (l0 :: l1 :: ls1) [','] =
        l0 :: appendLast (l1 :: ls1) [','] from rfl] at hl
      rcases List.mem_cons.mp hl with rfl | hl
      · exact hgood l (List.mem_cons_self _ _)
      · exact ih (fun x hx => hgood x (List.mem_cons_of_mem _ hx))
          (by simp) l hl

/-- Every line produced by the line renderer is `lineGood`; mutual
statement by fuel induction. -/
theorem lineGood_all (n : Nat) :
    (∀ (v : JValue) (k : Nat), sizeJ v ≤ n →
      ∀ l ∈ renderLines k v, lineGood l) ∧
    (∀ (hv : JValue) (t : JArray) (k : Nat), sizeA (.cons hv t) ≤ n →
      ∀ l ∈ renderItemsLines k hv t, lineGood l) ∧
    (∀ (key : String) (v : JValue) (t : JObject) (k : Nat),
      sizeO (.cons key v t) ≤ n →
      ∀ l ∈ renderMembersLines k key v t, lineGood l) := by
  induction n with
  | zero =>
    refine ⟨?_, ?_, ?_⟩
    · intro v k hf
      have := sizeJ_pos v
      omega
    · intro hv t k hf
      have := sizeJ_pos hv
      simp only [sizeA] at hf
      omega
    · intro key v t k hf
      have := sizeJ_pos v
      simp only [sizeO] at hf
      omega
  | succ n ih =>
    obtain ⟨ihV, ihI, ihM⟩ := ih
    have hclose : ∀ (k : Nat) (c : Char), c ≠ '\n' → c ≠ '-' →
        lineGood (spaces k ++ [c]) := by
      intro k c hc1 hc2
      refine ⟨by simp, ?_, ?_⟩
      · intro hcontra
        rcases List.mem_append.mp hcontra with h | h
        · exact spaces_no_newline k h
        · simp at h
          exact hc1 h.symm
      · rw [List.getLast?_concat]
        intro hcontra
        injection hcontra with hcontra
        exact hc2 hcontra
    refine ⟨?_, ?_, ?_⟩
    · intro v k hf
      cases v with
      | null =>
        intro l hl
        rw [show renderLines k .null = [nullChars] from by
          simp [renderLines]] at hl
        rcases List.mem_cons.mp hl with rfl | hl
        · exact ⟨by decide, by decide, by decide⟩
        · simp at hl
      | bool b =>
        intro l hl
        cases b with
        | false =>
          rw [show renderLines k (.bool false) =
            [falseChars] from by simp [renderLines]] at hl
          rcases List.mem_cons.mp hl with rfl | hl
          · exact ⟨by decide, by decide, by decide⟩
          · simp at hl
        | true =>
          rw [show renderLines k (.bool true) =
            [trueChars] from by simp [renderLines]] at hl
          rcases List.mem_cons.mp hl with rfl | hl
          · exact ⟨by decide, by decide, by decide⟩
          · simp at hl
      | int m =>
        intro l hl
        rw [show renderLines k (.int m) = [intChars m] from by
          simp [renderLines]] at hl
        rcases List.mem_cons.mp hl with rfl | hl
        · refine ⟨intChars_ne_nil m, ?_, ?_⟩
          · intro hcontra
            rcases intChars_mem m '\n' hcontra with h | h
            · exact absurd h (by decide)
            · exact absurd h (by decide)
          · intro hcontra
            have hmem := List.mem_of_mem_getLast? hcontra
            have hend : ∀ c, (intChars m).getLast? = some c →
                c.isDigit = true := by
              intro c hc
              unfold intChars at hc
              split at hc
              · rw [show ('-' :: natChars (-m).toNat :
                  List Char) = ['-'] ++ natChars (-m).toNat from rfl,
                  getLast?_append_right (natChars_ne_nil _)] at hc
                exact natChars_mem_isDigit _ c (List.mem_of_mem_getLast? hc)
              · exact natChars_mem_isDigit _ c (List.mem_of_mem_getLast? hc)
            have := hend '-' hcontra
            exact absurd this (by decide)
        · simp at hl
      | str s =>
        intro l hl
        rw [show renderLines k (.str s) =
          ['"' :: (escapeL s.data ++ ['"'])] from by
            simp [renderLines]] at hl
        rcases List.mem_cons.mp hl with rfl | hl
        · refine ⟨by simp, ?_, ?_⟩
          · intro hcontra
            rcases List.mem_cons.mp hcontra with h | h
            · exact absurd h (by decide)
            · rcases List.mem_append.mp h with h | h
              · exact escapeL_no_newline _ h
              · simp at h
          · rw [show ('"' :: (escapeL s.data ++ ['"']) : List Char) =
              ('"' :: escapeL s.data) ++ ['"'] from by simp,
              List.getLast?_concat]
            decide
        · simp at hl
      | arr a =>
        cases a with
        | nil =>
          intro l hl
          rw [show renderLines k (.arr .nil) = [['[', ']']] from by
            simp [renderLines]] at hl
          rcases List.mem_cons.mp hl with rfl | hl
          · exact ⟨by decide, by decide, by decide⟩
          · simp at hl
        | cons hv t =>
          intro l hl
          have hsz : sizeA (.cons hv t) ≤ n := by
            simp only [sizeJ] at hf
            omega
          rw [show renderLines k (.arr (.cons hv t)) =
            ['['] :: (renderItemsLines (k + 2) hv t ++
              [spaces k ++ [']']]) from by simp [renderLines]] at hl
          rcases List.mem_cons.mp hl with rfl | hl
          · exact ⟨by decide, by decide, by decide⟩
          · rcases List.mem_append.mp hl with h | h
            · exact ihI hv t (k + 2) hsz l h
            · rw [List.mem_singleton] at h
              subst h
              exact hclose k ']' (by decide) (by decide)
      | obj o =>
        cases o with
        | nil =>
          intro l hl
          rw [show renderLines k (.obj .nil) = [['{', '}']] from by
            simp [renderLines]] at hl
          rcases List.mem_cons.mp hl with rfl | hl
          · exact ⟨by decide, by decide, by decide⟩
          · simp at hl
        | cons key v t =>
          intro l hl
          have hsz : sizeO (.cons key v t) ≤ n := by
            simp only [sizeJ] at hf
            omega
          rw [show renderLines k (.obj (.cons key v t)) =
            ['{'] :: (renderMembersLines (k + 2) key v t ++
              [spaces k ++ ['}']]) from by simp [renderLines]] at hl
          rcases List.mem_cons.mp hl with rfl | hl
          · exact ⟨by decide, by decide, by decide⟩
          · rcases List.mem_append.mp hl with h | h
            · exact ihM key v t (k + 2) hsz l h
            · rw [List.mem_singleton] at h
              subst h
              exact hclose k '}' (by decide) (by decide)
    · intro hv t k hf
      cases t with
      | nil =>
        have hsz : sizeJ hv ≤ n := by
          simp only [sizeA] at hf
          omega
        intro l hl
        rw [show renderItemsLines k hv .nil =
          prependFirst (spaces k) (renderLines k hv) from by
            simp [renderItemsLines]] at hl
        exact lineGood_prependFirst _ _ (spaces_no_newline k)
          (ihV hv k hsz) (renderLines_ne_nil _ _) l hl
      | cons hv2 t2 =>
        have hp := sizeJ_pos hv
        have hsz : sizeJ hv ≤ n := by
          simp only [sizeA] at hf
          omega
        have hsz2 : sizeA (.cons hv2 t2) ≤ n := by
          simp only [sizeA] at hf ⊢
          omega
        intro l hl
        rw [show renderItemsLines k hv (.cons hv2 t2) =
          appendLast (prependFirst (spaces k) (renderLines k hv)) [','] ++
            renderItemsLines k hv2 t2 from by
              simp [renderItemsLines]] at hl
        rcases List.mem_append.mp hl with h | h
        · exact lineGood_appendLast _
            (lineGood_prependFirst _ _ (spaces_no_newline k)
              (ihV hv k hsz) (renderLines_ne_nil _ _))
            (prependFirst_ne_nil _ _) l h
        · exact ihI hv2 t2 k hsz2 l h
    · intro key v t k hf
      have hpnl : '\n' ∉ spaces k ++ keyChars key := by
        intro hcontra
        rcases List.mem_append.mp hcontra with h | h
        · exact spaces_no_newline k h
        · exact keyChars_no_newline key h
      cases t with
      | nil =>
        have hsz : sizeJ v ≤ n := by
          simp only [sizeO] at hf
          omega
        intro l hl
        rw [show renderMembersLines k key v .nil =
          prependFirst (spaces k ++ keyChars key) (renderLines k v) from by
            simp [renderMembersLines]] at hl
        exact lineGood_prependFirst _ _ hpnl (ihV v k hsz)
          (renderLines_ne_nil _ _) l hl
      | cons key2 v2 t2 =>
        have hp := sizeJ_pos v
        have hsz : sizeJ v ≤ n := by
          simp only [sizeO] at hf
          omega
        have hsz2 : sizeO (.cons key2 v2 t2) ≤ n := by
          simp only [sizeO] at hf ⊢
          omega
        intro l hl
        rw [show renderMembersLines k key v (.cons key2 v2 t2) =
          appendLast (prependFirst (spaces k ++ keyChars key)
            (renderLines k v)) [','] ++
            renderMembersLines k key2 v2 t2 from by
              simp [renderMembersLines]] at hl
        rcases List.mem_append.mp hl with h | h
        · exact lineGood_appendLast _
            (lineGood_prependFirst _ _ hpnl (ihV v k hsz)
              (renderLines_ne_nil _ _))
            (prependFirst_ne_nil _ _) l h
        · exact ihM key2 v2 t2 k hsz2 l h

theorem dashes_no_newline : '\n' ∉ dashes := by decide

theorem dashes_getLast : dashes.getLast? = some '-' := by decide

theorem splitNl_append_newline (l t : List Char) (h : '\n' ∉ l) :
    splitNl (l ++ '\n' :: t) = l :: splitNl t := by
  induction l with
  | nil =>
    show splitNl ('\n' :: t) = [] :: splitNl t
    simp [splitNl]
  | cons c l ih =>
    have hc : c ≠ '\n' := by
      intro hcontra
      exact h (hcontra ▸ List.mem_cons_self c l)
    rw [List.cons_append]
    show splitNl (c :: (l ++ '\n' :: t)) = (c :: l) :: splitNl t
    simp only [splitNl]
    rw [if_neg hc]
    simp only [ih (fun hm => h (List.mem_cons_of_mem c hm))]

theorem splitNl_joinLines (ls : List (List Char)) (t : List Char)
    (hne : ls ≠ []) (h : ∀ l ∈ ls, '\n' ∉ l) :
    splitNl (joinLines ls ++ '\n' :: t) = ls ++ splitNl t := by
  induction ls with
  | nil => contradiction
  | cons l ls ih =>
    cases ls with
    | nil =>
      show splitNl (l ++ '\n' :: t) = [l] ++ splitNl t
      rw [splitNl_append_newline l t (h l (List.mem_cons_self _ _))]
      rfl
    | cons l2 ls2 =>
      have h1 : joinLines (l :: l2 :: ls2) =
          l ++ '\n' :: joinLines (l2 :: ls2) := rfl
      rw [h1,
        show (l ++ '\n' :: joinLines (l2 :: ls2)) ++ '\n' :: t =
          l ++ '\n' :: (joinLines (l2 :: ls2) ++ '\n' :: t) from by simp,
        splitNl_append_newline l _ (h l (List.mem_cons_self _ _)),
        ih (by simp) (fun x hx => h x (List.mem_cons_of_mem _ hx))]
      rfl

theorem splitNl_logText (es : List JObject) :
    splitNl (logText es) = (es.map entryLines).flatten ++ [[]] := by
  induction es with
  | nil => rfl
  | cons e es ih =>
    have h1 : logText (e :: es) = log_entry_text e ++ logText es := by
      simp [logText]
    have hE : joinLines (renderLines 0 (.obj e)) = renderV 0 (.obj e) :=
      (joinRender_all (sizeJ (.obj e))).1 (.obj e) 0 le_rfl
    have hG : ∀ l ∈ renderLines 0 (.obj e), '\n' ∉ l := by
      intro l hl
      exact ((lineGood_all (sizeJ (.obj e))).1 (.obj e) 0 le_rfl l hl).2.1
    rw [h1,
      show log_entry_text e ++ logText es =
        joinLines (renderLines 0 (.obj e)) ++
          '\n' :: (dashes ++ '\n' :: logText es) from by
            simp [log_entry_text, hE],
      splitNl_joinLines _ _ (renderLines_ne_nil _ _) hG,
      splitNl_append_newline dashes _ dashes_no_newline, ih]
    simp [entryLines]

theorem parseChunk_render (e : JObject) :
    parseChunk (renderV 0 (.obj e)) = some e := by
  unfold parseChunk
  have hsz : sizeJ (.obj e) ≤ (renderV 0 (.obj e)).length :=
    (sizeLe_all (sizeJ (.obj e))).1 (.obj e) 0 le_rfl
  have h := (rt_all ((renderV 0 (.obj e)).length)).1 (.obj e) 0 [] hsz
    digitSafe_nil
  rw [List.append_nil] at h
  simp only [h]

theorem parseBlocksAux_block (B : List (List Char))
    (acc : List (List Char)) (rest : List (List Char))
    (hB : ∀ l ∈ B, l ≠ dashes) :
    parseBlocksAux acc (B ++ dashes :: rest) =
      match parseChunk (joinLines (acc.reverse ++ B)) with
      | some e => (parseBlocksAux [] rest).map (fun es => e :: es)
      | none => none := by
  induction B generalizing acc with
  | nil =>
    show parseBlocksAux acc (dashes :: rest) = _
    simp only [parseBlocksAux, if_pos rfl, List.append_nil, if_true]
  | cons b B ih =>
    have hb : b ≠ dashes := hB b (List.mem_cons_self _ _)
    show parseBlocksAux acc ((b :: B) ++ dashes :: rest) = _
    rw [List.cons_append]
    show parseBlocksAux acc (b :: (B ++ dashes :: rest)) = _
    simp only [parseBlocksAux]
    rw [if_neg hb, ih (b :: acc) (fun l hl => hB l (List.mem_cons_of_mem _ hl))]
    rw [List.reverse_cons, List.append_assoc]
    simp only [List.singleton_append]

theorem parseBlocks_logLines (es : List JObject) :
    parseBlocksAux [] (es.map entryLines).flatten = some es := by
  induction es with
  | nil => rfl
  | cons e es ih =>
    have h1 : (List.map entryLines (e :: es)).flatten =
        renderLines 0 (.obj e) ++
          dashes :: (List.map entryLines es).flatten := by
      simp [entryLines]
    have hB : ∀ l ∈ renderLines 0 (.obj e), l ≠ dashes := by
      intro l hl heq
      have hg := (lineGood_all (sizeJ (.obj e))).1 (.obj e) 0 le_rfl l hl
      rw [heq] at hg
      exact hg.2.2 dashes_getLast
    rw [h1, parseBlocksAux_block _ [] _ hB]
    have hE : joinLines (renderLines 0 (.obj e)) = renderV 0 (.obj e) :=
      (joinRender_all (sizeJ (.obj e))).1 (.obj e) 0 le_rfl
    simp only [List.reverse_nil, List.nil_append, hE, parseChunk_render,
      ih]
    rfl

/-- Claim C7: the round trip of the log sink.  For every sequence of
records — whatever the field values, including text with embedded newlines
or dashes — the text that the `log_entry` appends write to the file splits
back into well-formed blocks delimited by the 80-dash separator line, and
parsing each block recovers exactly the original records. -/
theorem claim_C7 (es : List JObject) :
    parseLogText (logText es) = some es := by
  unfold parseLogText
  simp only [splitNl_logText, List.getLast?_concat, List.dropLast_concat]
  exact parseBlocks_logLines es

end Juplaunc
